import Mathlib

/-!
# maxcpumhz: the cpu MHz scanner and its aggregators

A shallow embedding of `maxcpumhz.c`.

* The text source is a `List Char`: `fgetc` hands out the head of the list and
  answers `EOF` once the list is empty (and keeps answering `EOF`). A C `char`
  is a Lean `Char`; every byte value is one.
* Every loop of the C program is one recursive function over the unread part
  of its input; leaving a loop is a call of the function of the loop that
  runs next.
* The output buffer is described by `BufState`: the two counters the caller owns
  (`*filelen`, `*buflen`) and the block the caller's pointer `buffer` refers to.
* The C library functions the program calls on its values (`strtod`, `qsort`,
  `printf("%.2lf")`) are parameters of the aggregators; reference instances
  over `ℚ`, and over `ℚ` with infinity for the range of `double`, are given so
  that everything can be evaluated.
-/

namespace MaxCpuMhz

/-! ## Data model -/

/-- The label `static const char * CPUMHZ = "cpu MHz"`, seven characters. -/
def CPUMHZ : List Char := ['c', 'p', 'u', ' ', 'M', 'H', 'z']

/-- The `<ctype.h>` test `isdigit` in the C locale: `'0'` to `'9'`. -/
def isdigit (c : Char) : Bool := c.isDigit

/-- How a call ends: it returns a value, the process leaves through
`exit(status)`, or the execution has left defined behaviour (a load or store
outside a live block). -/
inductive Outcome (α : Type) where
  | ok (a : α)
  | exit (status : Nat)
  | undefined
deriving DecidableEq, Repr

/-- The buffer as the caller (`main`, `printcpuinfo`, `readcpuinfo`) sees it.
`filelen` and `buflen` are the variables behind the pointers `size_t *filelen`
and `size_t *buflen`. `buffer` is the block behind the caller's `char * buffer`:
`some mem` while that block is live (`mem` its bytes, as many as were
allocated), `none` once the block has been handed to `realloc`, after which the
caller's pointer refers to no object. -/
structure BufState where
  filelen : Nat
  buflen : Nat
  buffer : Option (List Char)
deriving DecidableEq, Repr

/-! ## FieldScanner -/

/-- The function `writetobuffer(len, buflen, buffer, c)`.

`buffer` is passed by value. When `*len == *buflen` the function doubles
`*buflen`, reallocates, and stores `c` through the pointer `realloc` returned,
which only the local parameter holds; the caller's pointer is not updated, and
the block it referred to has been released by `realloc`. Otherwise `c` is stored
at index `*len` of the caller's block. In both cases `*len` is incremented.
A store through a pointer whose block was released, or outside the block, is
undefined (`none`); the block `realloc` returns has the doubled `*buflen` bytes.
Allocation itself is taken to succeed. -/
def writetobuffer (st : BufState) (c : Char) : Option BufState :=
  match st.buffer with
  | none => none
  | some mem =>
    if st.filelen = st.buflen then
      if st.filelen < st.buflen * 2 then
        some { filelen := st.filelen + 1, buflen := st.buflen * 2, buffer := none }
      else none
    else if st.filelen < mem.length then
      some { st with filelen := st.filelen + 1, buffer := some (mem.set st.filelen c) }
    else none

mutual
/-- The outer loop of `readcpuinfo`, `while ((c = fgetc(file)) != EOF)`.
`last` holds the cells `last[0 .. lasti-1]` of the window, so `lasti` is
`last.length` (cells from `lasti` on are never read before they are written).
With `lasti == 7` the window is shifted left and `c` stored in `last[6]`;
otherwise `c` is stored at `last[lasti++]`. Unless the window now spells
`CPUMHZ` the loop continues; on a hit the window is cleared and the skip loop
runs. -/
def scanLoop (last : List Char) (st : BufState) : List Char → Option BufState
  | [] => some st
  | c :: file =>
    if last.length = 7 then
      let last1 := last.tail ++ [c]
      if last1 ≠ CPUMHZ then scanLoop last1 st file
      else skipLoop st file
    else
      let last1 := last ++ [c]
      if ¬ (last1.length = 7 ∧ last1 = CPUMHZ) then scanLoop last1 st file
      else skipLoop st file
/-- The loop `while (!isdigit(c = fgetc(file)) && c != EOF);` and the test
`if (c == EOF) continue;` after it: at `EOF` the outer loop reads `EOF` again and
`readcpuinfo` returns; at a digit the collecting loop starts with that digit. -/
def skipLoop (st : BufState) : List Char → Option BufState
  | [] => some st
  | c :: file => if isdigit c then collectLoop st c file else skipLoop st file
/-- The loop `do { writetobuffer(.., c); } while ((c = fgetc(file)) != '\n' && c != EOF);`
followed by `writetobuffer(.., '\n')` and the next round of the outer loop, which
starts with the window cleared (`lasti = 0`). -/
def collectLoop (st : BufState) (c : Char) : List Char → Option BufState
  | [] => (writetobuffer st c).bind fun st1 => writetobuffer st1 '\n'
  | d :: file =>
    match writetobuffer st c with
    | none => none
    | some st1 =>
      if d = '\n' then
        match writetobuffer st1 '\n' with
        | none => none
        | some st2 => scanLoop [] st2 file
      else collectLoop st1 d file
end

/-- The function `readcpuinfo(filelen, buflen, buffer)`. `file` is what
`fopen("/proc/cpuinfo", "r")` gives: `none` when the file cannot be opened (the
function then calls `exit(1)`), otherwise the text of the file. The window
starts empty (`lasti = 0`). -/
def readcpuinfo (file : Option (List Char)) (st : BufState) : Outcome BufState :=
  match file with
  | none => Outcome.exit 1
  | some text =>
    match scanLoop [] st text with
    | none => Outcome.undefined
    | some st1 => Outcome.ok st1

/-- The state `main` builds before the first scan: `filelen = 0`,
`buflen = n` and a block of `n` bytes from `malloc`, whose content `junk` is
whatever the allocator left there. -/
def freshState (junk : List Char) : BufState :=
  { filelen := 0, buflen := junk.length, buffer := some junk }

/-! ## Aggregator

The clock values live in a type `V` with a linear order and a zero: the
`double` values `strtod` can return for a token that starts with a digit (no
NaN). `strtod` is given the text that starts at `startptr` (the rest of the
block); it decides by itself where the number ends. -/

/-- The loop of `printcpumax`: `for (i = 0; i < len; ++i)` with the inner loop
`while (strings[i] != '\n') ++i;`. The list is the block from `strings + i` on;
reading past its end is undefined (`none`). At a newline
`mhz = strtod(startptr)` is compared with `max`; then `++i`, and the next
round starts at `strings + i` if `i < len`. -/
def maxLoop {V : Type} [LinearOrder V] (strtod : List Char → V) (len : Nat)
    (startptr : List Char) (max : V) : Nat → List Char → Option V
  | _, [] => none
  | i, c :: mem =>
    if c ≠ '\n' then maxLoop strtod len startptr max (i + 1) mem
    else
      let mhz := strtod startptr
      let max1 := if max < mhz then mhz else max
      if i + 1 < len then maxLoop strtod len mem max1 (i + 1) mem else some max1

/-- The value of `max` that `printcpumax(len, strings)` hands to `printf`:
`0.0` when the loop body never runs. -/
def maxclock {V : Type} [LinearOrder V] [Zero V] (strtod : List Char → V) (len : Nat)
    (strings : List Char) : Option V :=
  if 0 < len then maxLoop strtod len strings 0 0 strings else some 0

/-- The function `printcpumax(len, strings)`: the text written to standard
output, `printf("%.2lf", max)`, with `fmt` for the conversion `%.2lf`. -/
def printcpumax {V : Type} [LinearOrder V] [Zero V] (strtod : List Char → V)
    (fmt : V → List Char) (len : Nat) (strings : List Char) : Option (List Char) :=
  (maxclock strtod len strings).map fmt

/-- The type `struct _cpuclock`. -/
structure cpuclock (V : Type) where
  nodeid : Nat
  clock : V
deriving DecidableEq, Repr

/-- The comparison function `comparecpuclock`. -/
def comparecpuclock {V : Type} [LinearOrder V] (ca cb : cpuclock V) : Int :=
  if ca.clock = cb.clock then 0
  else if ca.clock < cb.clock then -1 else 1

/-- The first loop of `printcpuall`: it counts the newlines among
`strings[0 .. len-1]`. The first argument is `len - i`, the list the block from
`strings + i` on. -/
def countLoop : Nat → List Char → Nat → Option Nat
  | 0, _, cpucount => some cpucount
  | _ + 1, [], _ => none
  | n + 1, c :: mem, cpucount =>
    countLoop n mem (if c = '\n' then cpucount + 1 else cpucount)

/-- The second loop of `printcpuall`. `cpuclocks` lists the cells written so
far, cells `0 .. nodeid-1` of the array of `cpucount` cells; a round may start
only with `nodeid < cpucount`, as it stores into `cpuclocks[nodeid]`. -/
def fillLoop {V : Type} (strtod : List Char → V) (len cpucount : Nat)
    (startptr : List Char) (nodeid : Nat) (cpuclocks : List (cpuclock V)) :
    Nat → List Char → Option (List (cpuclock V))
  | _, [] => none
  | i, c :: mem =>
    if c ≠ '\n' then fillLoop strtod len cpucount startptr nodeid cpuclocks (i + 1) mem
    else
      let cpuclocks1 := cpuclocks ++ [{ nodeid := nodeid, clock := strtod startptr }]
      if i + 1 < len then
        if nodeid + 1 < cpucount then
          fillLoop strtod len cpucount mem (nodeid + 1) cpuclocks1 (i + 1) mem
        else none
      else some cpuclocks1

/-- The array `cpuclocks` of `printcpuall(len, strings)` after the call of
`qsort`, which sorts `cpucount` cells and so needs all of them written. -/
def sortedclocks {V : Type} [LinearOrder V]
    (qsort : (cpuclock V → cpuclock V → Int) → List (cpuclock V) → List (cpuclock V))
    (strtod : List Char → V) (len : Nat) (strings : List Char) :
    Option (List (cpuclock V)) :=
  match countLoop len strings 0 with
  | none => none
  | some cpucount =>
    let filled :=
      if 0 < len then
        if 0 < cpucount then fillLoop strtod len cpucount strings 0 [] 0 strings else none
      else some []
    match filled with
    | none => none
    | some cpuclocks =>
      if cpuclocks.length = cpucount then some (qsort comparecpuclock cpuclocks) else none

/-- The last loop of `printcpuall`: `", "` before every cell but the first,
then `printf("%.2lf", cpuclocks[i].clock)`. -/
def printLoop {V : Type} (fmt : V → List Char) : Nat → List (cpuclock V) → List Char
  | _, [] => []
  | i, x :: xs => (if i ≠ 0 then [',', ' '] else []) ++ fmt x.clock ++ printLoop fmt (i + 1) xs

/-- The function `printcpuall(len, strings)`: the text written to standard
output. -/
def printcpuall {V : Type} [LinearOrder V]
    (qsort : (cpuclock V → cpuclock V → Int) → List (cpuclock V) → List (cpuclock V))
    (strtod : List Char → V) (fmt : V → List Char) (len : Nat) (strings : List Char) :
    Option (List Char) :=
  (sortedclocks qsort strtod len strings).map (printLoop fmt 0)

/-- The function `printcpuinfo(filelen, buflen, buffer, displayall)`:
`*filelen = 0`, the scan, then one of the two aggregators on `*filelen` and the
caller's `buffer`. A block that is gone has no byte that may be read. The
result is the text printed and the buffer state left for the next cycle. -/
def printcpuinfo {V : Type} [LinearOrder V] [Zero V]
    (qsort : (cpuclock V → cpuclock V → Int) → List (cpuclock V) → List (cpuclock V))
    (strtod : List Char → V) (fmt : V → List Char)
    (file : Option (List Char)) (st : BufState) (displayall : Bool) :
    Outcome (List Char × BufState) :=
  match readcpuinfo file { st with filelen := 0 } with
  | Outcome.exit status => Outcome.exit status
  | Outcome.undefined => Outcome.undefined
  | Outcome.ok st1 =>
    let strings := st1.buffer.getD []
    let printed :=
      if displayall then printcpuall qsort strtod fmt st1.filelen strings
      else printcpumax strtod fmt st1.filelen strings
    match printed with
    | none => Outcome.undefined
    | some out => Outcome.ok (out, st1)

/-! ## The C library: contract of `qsort` and reference instances -/

/-- What the C standard promises of `qsort` for a comparison function that is
a consistent total preorder: the array afterwards is a rearrangement of the
array before, in ascending order under the comparison function. Nothing is
promised about the order of elements that compare equal. -/
def QsortContract {α : Type} (qsort : (α → α → Int) → List α → List α) : Prop :=
  ∀ (cmp : α → α → Int) (base : List α),
    (∀ a b, cmp a b ≤ 0 ∨ cmp b a ≤ 0) →
    (∀ a b c, cmp a b ≤ 0 → cmp b c ≤ 0 → cmp a c ≤ 0) →
    (qsort cmp base).Perm base ∧ (qsort cmp base).Pairwise fun a b => cmp a b ≤ 0

/-- A `qsort` that keeps equal elements in their original order: insertion
sort. -/
def qsortStable {α : Type} (cmp : α → α → Int) (base : List α) : List α :=
  base.insertionSort fun a b => cmp a b ≤ 0

/-- What a stable sort adds to the contract of `qsort`, for a comparison
function that is a consistent total preorder: two elements that compare equal
stand in the sorted array in the order they had in the array before. The C
standard does not ask this of `qsort`; the merge sort the GNU C library uses
for `qsort` has the property. -/
def QsortStable {α : Type} (qsort : (α → α → Int) → List α → List α) : Prop :=
  ∀ (cmp : α → α → Int) (base : List α),
    (∀ a b, cmp a b ≤ 0 ∨ cmp b a ≤ 0) →
    (∀ a b c, cmp a b ≤ 0 → cmp b c ≤ 0 → cmp a c ≤ 0) →
    ∀ a b : α, cmp a b = 0 → List.Sublist [a, b] base → List.Sublist [a, b] (qsort cmp base)


/-- The `<ctype.h>` test `isspace` in the C locale. -/
def isspace (c : Char) : Bool :=
  c = ' ' || c = '\t' || c = '\n' || c = '\x0b' || c = '\x0c' || c = '\r'

/-- The value of a run of decimal digits. -/
def digitsValue (ds : List Char) : Nat :=
  ds.foldl (fun n c => 10 * n + (c.toNat - '0'.toNat)) 0

/-- A reference instance of `strtod` for texts of the form of the cpu MHz
field: leading white space is skipped, then decimal digits with an optional
point and more digits are read; the value is exact (no rounding to binary64),
and 0 when no digit is found. Signs, exponents, hexadecimal and the special
values are outside this instance. -/
def strtodRef (s : List Char) : ℚ :=
  let s1 := s.dropWhile isspace
  let ip := s1.takeWhile isdigit
  match s1.dropWhile isdigit with
  | '.' :: fr =>
    let fp := fr.takeWhile isdigit
    mkRat (digitsValue (ip ++ fp)) (10 ^ fp.length)
  | _ => mkRat (digitsValue ip) 1

/-- The decimal digit character of a number below ten. -/
def digitChar (n : Nat) : Char := Char.ofNat ('0'.toNat + n % 10)

/-- The absolute value scaled by 100 and rounded to the nearest integer, ties
to even (the default rounding of `printf`). -/
def roundHundredths (q : ℚ) : Nat :=
  let n := q.num.natAbs * 100
  let f := n / q.den
  let r := n % q.den
  if 2 * r < q.den then f
  else if q.den < 2 * r then f + 1
  else if f % 2 = 0 then f else f + 1

/-- A reference instance of the conversion `%.2lf` on exact values. -/
def fmt2 (q : ℚ) : List Char :=
  let n := roundHundredths q
  (if q.num < 0 then ['-'] else []) ++ (Nat.repr (n / 100)).toList ++
    ['.', digitChar (n / 10), digitChar n]

/-- The least value that no longer rounds to a finite `double`:
`2 ^ 1024 - 2 ^ 970`, half a unit in the last place above the largest finite
`double` (the powers are written as products of smaller ones). -/
def doubleLimit : Nat :=
  2 ^ 256 * 2 ^ 256 * 2 ^ 256 * 2 ^ 256 - 2 ^ 256 * 2 ^ 256 * 2 ^ 256 * 2 ^ 202

/-- A reference instance of `strtod` with the range of `double`: for a value
from `doubleLimit` on `strtod` returns `HUGE_VAL`, positive infinity (`⊤`);
below, the exact value of `strtodRef` is kept (no rounding to binary64). -/
def strtodDouble (s : List Char) : WithTop ℚ :=
  if doubleLimit ≤ (strtodRef s).num.toNat / (strtodRef s).den then ⊤
  else ((strtodRef s : ℚ) : WithTop ℚ)

/-- A reference instance of the conversion `%.2lf` on these values: `inf` for
positive infinity, two decimal places for a finite value. -/
def fmtDouble (v : WithTop ℚ) : List Char :=
  match v with
  | none => ['i', 'n', 'f']
  | some q => fmt2 q


/-- A token is a decimal literal: decimal digits with at most one point, and
at least one digit. -/
def isDecimalLiteral (t : List Char) : Bool :=
  t.all (fun c => isdigit c || c = '.') && t.any isdigit && decide (t.count '.' ≤ 1)

/-! ## Specification vocabulary for the scanner -/

/-- The characters handed to `writetobuffer` one after the other, starting
from state `st`; `none` as soon as one store is undefined. -/
def writeAll (st : BufState) : List Char → Option BufState
  | [] => some st
  | c :: cs => (writetobuffer st c).bind fun st1 => writeAll st1 cs

/-- The buffer text of a list of tokens: every token followed by one newline. -/
def tokensText : List (List Char) → List Char
  | [] => []
  | t :: ts => t ++ '\n' :: tokensText ts

/-- A token starts with a decimal digit. -/
def startsWithDigit : List Char → Bool
  | [] => false
  | d :: _ => isdigit d

/-- One record of the source text: `pre ++ "cpu MHz" ++ sep ++ num ++ "\n"`. -/
structure Record where
  pre : List Char
  sep : List Char
  num : List Char
deriving DecidableEq, Repr

/-- The text of a record. -/
def Record.text (r : Record) : List Char :=
  r.pre ++ CPUMHZ ++ r.sep ++ r.num ++ ['\n']

/-- A record is well formed when `pre` has no occurrence of the label, `sep`
has no decimal digit, and `num` starts with a decimal digit and has no
newline. -/
def Record.WellFormed (r : Record) : Prop :=
  ¬ CPUMHZ <:+: r.pre ∧ (∀ c ∈ r.sep, isdigit c = false) ∧
    startsWithDigit r.num = true ∧ '\n' ∉ r.num

instance (r : Record) : Decidable r.WellFormed := by
  unfold Record.WellFormed; infer_instance

/-- The stream made of the records one after the other. -/
def recordsText : List Record → List Char
  | [] => []
  | r :: rs => r.text ++ recordsText rs

/-- The outcome that goes with the result of a run of loops: `none` is
undefined behaviour. -/
def Outcome.ofOption {α : Type} : Option α → Outcome α
  | none => Outcome.undefined
  | some a => Outcome.ok a

/-- How a text is read from a cleared window, and the tokens it yields.
Either the text has no label; or after the first label no digit follows; or
the first label is followed by a gap without digits, then a digit `d` and a
`body` that runs to the end of the text or to the next newline, after which
the rest of the text is read in the same way. -/
inductive Scanned : List Char → List (List Char) → Prop
  | noLabel (s : List Char) : ¬ CPUMHZ <:+: s → Scanned s []
  | noDigit (p gap : List Char) : ¬ CPUMHZ <:+: p → (∀ c ∈ gap, isdigit c = false) →
      Scanned (p ++ CPUMHZ ++ gap) []
  | lastToken (p gap : List Char) (d : Char) (body : List Char) : ¬ CPUMHZ <:+: p →
      (∀ c ∈ gap, isdigit c = false) → isdigit d = true → '\n' ∉ body →
      Scanned (p ++ CPUMHZ ++ gap ++ d :: body) [d :: body]
  | token (p gap : List Char) (d : Char) (body s : List Char) (toks : List (List Char)) :
      ¬ CPUMHZ <:+: p → (∀ c ∈ gap, isdigit c = false) → isdigit d = true → '\n' ∉ body →
      Scanned s toks →
      Scanned (p ++ CPUMHZ ++ gap ++ d :: body ++ '\n' :: s) ((d :: body) :: toks)

/-- A record as `/proc/cpuinfo` prints it: the label, two tabs, a colon, a
space and a clock value with three decimals. -/
def cpuinfoRecord : Record :=
  { pre := [], sep := ['\t', '\t', ':', ' '], num := ['2', '4', '0', '0', '.', '0', '0', '0'] }

/-! ## Specification vocabulary for the aggregators -/

/-- For a buffer made of tokens, each followed by a newline, with `junk` behind
it in the block: the texts that start at the first character of each token.
These are the texts `strtod` is called on. -/
def startTexts : List (List Char) → List Char → List (List Char)
  | [], _ => []
  | t :: ts, junk => (tokensText (t :: ts) ++ junk) :: startTexts ts junk

/-- The parsed token values, in the order of the tokens. -/
def parsedValues {V : Type} (strtod : List Char → V) (toks : List (List Char))
    (junk : List Char) : List V :=
  (startTexts toks junk).map strtod

/-- The readings of the tokens: the parsed value of each token with its
position in the order met, counted from `nodeid`. -/
def readingsFrom {V : Type} (strtod : List Char → V) (nodeid : Nat) :
    List (List Char) → List Char → List (cpuclock V)
  | [], _ => []
  | t :: ts, junk =>
    { nodeid := nodeid, clock := strtod (tokensText (t :: ts) ++ junk) } ::
      readingsFrom strtod (nodeid + 1) ts junk

/-- Readings that compare equal stand in the order met. -/
def StableOrder {V : Type} (cpuclocks : List (cpuclock V)) : Prop :=
  cpuclocks.Pairwise fun a b => a.clock = b.clock → a.nodeid < b.nodeid


instance {V : Type} [DecidableEq V] (cpuclocks : List (cpuclock V)) :
    Decidable (StableOrder cpuclocks) := by
  unfold StableOrder; infer_instance


/-! ## The program: `main` -/

/-- How the process stands at the end of an observation: it has ended with an
exit status, it has left defined behaviour, or it is still in the repeat
loop. -/
inductive Ending where
  | exited (status : Nat)
  | undefined
  | running
deriving DecidableEq, Repr

/-- What the process has written to its two streams, and how it stands. -/
structure Process where
  stdout : List Char
  stderr : List Char
  ending : Ending
deriving DecidableEq, Repr

/-- The text `main` prints first, whatever its arguments. -/
def banner : List Char :=
  ("maxcpumhz  Copyright (C) 2020  Fionn Langhans\n" ++
   "This program comes with ABSOLUTELY NO WARRANTY;\n" ++
   "This is free software, and you are welcome to redistribute it\n" ++
   "under certain conditions;\n\n").toList

/-- The usage text, as `puts` writes it (with a newline at the end). -/
def helpText : List Char :=
  ("cpumaxmhz: Display clock speed of processor threads\n" ++
   "\n" ++
   "ra - Repeat every 1 second, display all clock speeds\n" ++
   "r - Repeat every 1 second, display max\n" ++
   "a - Output one time, display all clock speeds\n" ++
   "No argument - Output one time, display max\n").toList

/-- The message `readcpuinfo` writes to the error stream before `exit(1)`. -/
def errorText : List Char := "Error reading /proc/cpuinfo".toList

/-- The flag `repeat` of `main`: with `argsc == 2`, whether `strchr(argsv[1], 'r')`
finds something. `args` are the arguments after the program name. -/
def argRepeat (args : List (List Char)) : Bool :=
  match args with
  | [s] => decide ('r' ∈ s)
  | _ => false

/-- The flag `displayall` of `main`: with `argsc == 2`, whether
`strchr(argsv[1], 'a')` finds something. -/
def argDisplayall (args : List (List Char)) : Bool :=
  match args with
  | [s] => decide ('a' ∈ s)
  | _ => false

/-- The test for the three help words, made with `argsc == 2` only. -/
def argHelp (args : List (List Char)) : Bool :=
  match args with
  | [s] => decide (s = "help".toList) || decide (s = "-h".toList) ||
      decide (s = "--help".toList)
  | _ => false

/-- The loop `while (repeat) { sleep(1); putchar('\r'); printcpuinfo(..); }`,
observed for at most `fuel` rounds. `file k` is what `fopen` gives in cycle `k`,
`out` the text written to standard output so far. The loop has no exit of its
own: it ends only through `exit(1)` in `readcpuinfo` or through undefined
behaviour, otherwise the process is still running when the observation
ends. -/
def repeatLoop {V : Type} [LinearOrder V] [Zero V]
    (qsort : (cpuclock V → cpuclock V → Int) → List (cpuclock V) → List (cpuclock V))
    (strtod : List Char → V) (fmt : V → List Char)
    (file : Nat → Option (List Char)) (displayall : Bool) :
    Nat → Nat → BufState → List Char → Process
  | 0, _, _, out => { stdout := out, stderr := [], ending := Ending.running }
  | fuel + 1, cycle, st, out =>
    match printcpuinfo qsort strtod fmt (file cycle) st displayall with
    | Outcome.exit status =>
      { stdout := out ++ ['\r'], stderr := errorText, ending := Ending.exited status }
    | Outcome.undefined =>
      { stdout := out ++ ['\r'], stderr := [], ending := Ending.undefined }
    | Outcome.ok (text, st1) =>
      repeatLoop qsort strtod fmt file displayall fuel (cycle + 1) st1 (out ++ '\r' :: text)

/-- The function `main(argsc, argsv)`. `args` are the arguments after the
program name, `junk` the 10240 bytes of the block `malloc` returns, `file k`
what `fopen` gives in cycle `k`, and `fuel` the number of rounds of the repeat
loop that are observed. After the banner, the help words end the process with
status 0; otherwise the first cycle runs, then the repeat loop if asked for,
else a newline is written and `main` returns (status 0). -/
def main {V : Type} [LinearOrder V] [Zero V]
    (qsort : (cpuclock V → cpuclock V → Int) → List (cpuclock V) → List (cpuclock V))
    (strtod : List Char → V) (fmt : V → List Char)
    (args : List (List Char)) (junk : List Char) (file : Nat → Option (List Char))
    (fuel : Nat) : Process :=
  if argHelp args then
    { stdout := banner ++ helpText, stderr := [], ending := Ending.exited 0 }
  else
    match printcpuinfo qsort strtod fmt (file 0)
        { filelen := 0, buflen := 10240, buffer := some junk } (argDisplayall args) with
    | Outcome.exit status =>
      { stdout := banner, stderr := errorText, ending := Ending.exited status }
    | Outcome.undefined => { stdout := banner, stderr := [], ending := Ending.undefined }
    | Outcome.ok (text, st1) =>
      if argRepeat args then
        repeatLoop qsort strtod fmt file (argDisplayall args) fuel 1 st1 (banner ++ text)
      else
        { stdout := banner ++ text ++ ['\n'], stderr := [], ending := Ending.exited 0 }

/-- The run of `main` that makes one scan and ends: the banner, the result of
the one cycle and a newline, status 0; or the end the cycle itself brings. -/
def singleScan {V : Type} [LinearOrder V] [Zero V]
    (qsort : (cpuclock V → cpuclock V → Int) → List (cpuclock V) → List (cpuclock V))
    (strtod : List Char → V) (fmt : V → List Char) (displayall : Bool)
    (junk : List Char) (file : Nat → Option (List Char)) : Process :=
  match printcpuinfo qsort strtod fmt (file 0)
      { filelen := 0, buflen := 10240, buffer := some junk } displayall with
  | Outcome.exit status =>
    { stdout := banner, stderr := errorText, ending := Ending.exited status }
  | Outcome.undefined => { stdout := banner, stderr := [], ending := Ending.undefined }
  | Outcome.ok (text, _) =>
    { stdout := banner ++ text ++ ['\n'], stderr := [], ending := Ending.exited 0 }

/-- The run of `main` that scans again and again: the banner, the result of
the first cycle, and then the repeat loop for as long as it is observed. -/
def repeatedScan {V : Type} [LinearOrder V] [Zero V]
    (qsort : (cpuclock V → cpuclock V → Int) → List (cpuclock V) → List (cpuclock V))
    (strtod : List Char → V) (fmt : V → List Char) (displayall : Bool)
    (junk : List Char) (file : Nat → Option (List Char)) (fuel : Nat) : Process :=
  match printcpuinfo qsort strtod fmt (file 0)
      { filelen := 0, buflen := 10240, buffer := some junk } displayall with
  | Outcome.exit status =>
    { stdout := banner, stderr := errorText, ending := Ending.exited status }
  | Outcome.undefined => { stdout := banner, stderr := [], ending := Ending.undefined }
  | Outcome.ok (text, st1) =>
    repeatLoop qsort strtod fmt file displayall fuel 1 st1 (banner ++ text)


/-! ## The state machine of the specification -/

/-- The four states of the FieldScanner of the specification. -/
inductive ScanState where
  | FILLING_WINDOW
  | WATCHING
  | SKIPPING_TO_DIGIT
  | COLLECTING_NUMBER
deriving DecidableEq, Repr

/-- The FieldScanner of the specification: its state, the window of the most
recently read characters (at most seven, counted from the last reset) and the
output buffer, which grows without bound. -/
structure SpecMachine where
  state : ScanState
  window : List Char
  output : List Char
deriving DecidableEq, Repr

/-- One character consumed by the machine of the specification. While filling
or watching, the character enters the window, which keeps the last seven
characters; a window equal to the label is a hit: the window is cleared and the
machine skips. While skipping, the first digit starts the number. While
collecting, a newline ends the number, a delimiter newline is appended and the
machine watches again with an empty window; any other character is appended. -/
def SpecMachine.step (m : SpecMachine) (c : Char) : SpecMachine :=
  match m.state with
  | ScanState.SKIPPING_TO_DIGIT =>
    if isdigit c then
      { state := ScanState.COLLECTING_NUMBER, window := [], output := m.output ++ [c] }
    else m
  | ScanState.COLLECTING_NUMBER =>
    if c = '\n' then
      { state := ScanState.WATCHING, window := [], output := m.output ++ ['\n'] }
    else { m with output := m.output ++ [c] }
  | _ =>
    let w := (m.window ++ [c]).drop ((m.window ++ [c]).length - 7)
    if w = CPUMHZ then
      { state := ScanState.SKIPPING_TO_DIGIT, window := [], output := m.output }
    else
      { state := if w.length = 7 then ScanState.WATCHING else ScanState.FILLING_WINDOW,
        window := w, output := m.output }

/-- End of stream: a number that is being collected is closed with the
delimiter newline; in the other states nothing is added. -/
def SpecMachine.finish (m : SpecMachine) : List Char :=
  match m.state with
  | ScanState.COLLECTING_NUMBER => m.output ++ ['\n']
  | _ => m.output

/-- The output of the machine of the specification on a text, started in the
state `s` with window `w` and an empty output buffer. -/
def specRun (s : ScanState) (w : List Char) (text : List Char) : List Char :=
  (text.foldl SpecMachine.step { state := s, window := w, output := [] }).finish

/-- The output buffer of the machine of the specification on a text. -/
def specScan (text : List Char) : List Char :=
  specRun ScanState.FILLING_WINDOW [] text

/-! ## Further specification vocabulary -/

/-- A text has exactly two decimal places: an optional minus sign, one or more
decimal digits, a point and two decimal digits. -/
def isTwoDecimals (s : List Char) : Bool :=
  match (if s.head? = some '-' then s.tail else s).reverse with
  | d2 :: d1 :: '.' :: ip => isdigit d2 && isdigit d1 && !ip.isEmpty && ip.all isdigit
  | _ => false

/-- The values joined with `", "`: no separator before the first or after the
last. -/
def joinValues : List (List Char) → List Char
  | [] => []
  | [x] => x
  | x :: y :: rest => x ++ ',' :: ' ' :: joinValues (y :: rest)

/-- What `strtod` returns for a text that starts with a digit depends on the
text up to the next newline only (a newline is never part of a number). -/
def StrtodLocal {V : Type} (strtod : List Char → V) : Prop :=
  ∀ t r1 r2 : List Char, startsWithDigit t = true → '\n' ∉ t →
    strtod (t ++ '\n' :: r1) = strtod (t ++ '\n' :: r2)

/-- What a cycle leaves to be seen: the text printed, `filelen`, `buflen` and
the first `filelen` bytes of the caller's block (if the block is live). -/
def observe (r : List Char × BufState) : List Char × Nat × Nat × Option (List Char) :=
  (r.1, r.2.filelen, r.2.buflen, r.2.buffer.map (List.take r.2.filelen))

/-- The outcome with a function applied to its value. -/
def Outcome.map {α β : Type} (f : α → β) : Outcome α → Outcome β
  | Outcome.ok a => Outcome.ok (f a)
  | Outcome.exit status => Outcome.exit status
  | Outcome.undefined => Outcome.undefined


/-! ## Theorems: the scanner -/

theorem writeAll_append (st : BufState) (a b : List Char) :
    writeAll st (a ++ b) = (writeAll st a).bind fun st1 => writeAll st1 b := by
  induction a generalizing st with
  | nil => simp [writeAll]
  | cons c cs ih =>
    simp only [List.cons_append, writeAll]
    cases writetobuffer st c with
    | none => simp
    | some st1 => simpa using ih st1

/-- One round of the outer loop, with the two branches of the window update
folded into one test. -/
theorem scanLoop_cons (last : List Char) (st : BufState) (c : Char) (file : List Char) :
    scanLoop last st (c :: file) =
      if (if last.length = 7 then last.tail ++ [c] else last ++ [c]) = CPUMHZ
      then skipLoop st file
      else scanLoop (if last.length = 7 then last.tail ++ [c] else last ++ [c]) st file := by
  rw [scanLoop]
  by_cases h7 : last.length = 7
  · simp only [h7, if_true]
    by_cases h : last.tail ++ [c] = CPUMHZ <;> simp [h]
  · simp only [h7, if_false]
    by_cases h : last ++ [c] = CPUMHZ
    · have hl : (last ++ [c]).length = 7 := by rw [h]; rfl
      simp [h, hl]
      intro hh; simp [CPUMHZ] at hh
    · simp [h]

theorem slide_length_le (w : List Char) (c : Char) (hw : w.length ≤ 7) :
    (if w.length = 7 then w.tail ++ [c] else w ++ [c]).length ≤ 7 := by
  split
  · simp; omega
  · simp; omega

theorem slide_suffix (w : List Char) (c : Char) (y : List Char) :
    (if w.length = 7 then w.tail ++ [c] else w ++ [c]) ++ y <:+ w ++ c :: y := by
  split
  · cases w with
    | nil => simp at *
    | cons a t =>
      refine ⟨[a], ?_⟩
      simp
  · simp

theorem slide_eq_label_iff (w : List Char) (c : Char) (hw : w.length ≤ 7) :
    (if w.length = 7 then w.tail ++ [c] else w ++ [c]) = CPUMHZ ↔ CPUMHZ <:+ w ++ [c] := by
  constructor
  · intro h
    have := slide_suffix w c []
    simpa [h] using this
  · intro h
    have hs := slide_suffix w c []
    simp only [List.append_nil] at hs
    have hlen : CPUMHZ.length ≤ (if w.length = 7 then w.tail ++ [c] else w ++ [c]).length := by
      have h1 := h.length_le
      split
      · simp [CPUMHZ]; omega
      · simp [CPUMHZ] at h1 ⊢; omega
    have h2 := List.suffix_of_suffix_length_le h hs hlen
    have h3 := slide_length_le w c hw
    exact (h2.eq_of_length (by simp [CPUMHZ] at hlen ⊢; omega)).symm

/-- The outer loop reaches the skip loop exactly at the end of the first place
where the characters read since the last reset end with the label. -/
theorem scanLoop_hit (st : BufState) (x : List Char) (c : Char) (rest : List Char) :
    ∀ w : List Char, w.length ≤ 7 → ¬ CPUMHZ <:+: w ++ x → CPUMHZ <:+ w ++ x ++ [c] →
      scanLoop w st (x ++ c :: rest) = skipLoop st rest := by
  induction x with
  | nil =>
    intro w hw _ hsuf
    rw [List.nil_append, scanLoop_cons]
    simp only [List.append_nil] at hsuf
    rw [if_pos ((slide_eq_label_iff w c hw).2 hsuf)]
  | cons d x ih =>
    intro w hw hno hsuf
    rw [List.cons_append, scanLoop_cons]
    have hne : ¬ (if w.length = 7 then w.tail ++ [d] else w ++ [d]) = CPUMHZ := by
      intro h
      apply hno
      have h1 := (slide_eq_label_iff w d hw).1 h
      obtain ⟨t, ht⟩ := h1
      exact ⟨t, x, by rw [ht]; simp⟩
    rw [if_neg hne]
    apply ih _ (slide_length_le w d hw)
    · intro hin
      exact hno (hin.trans (slide_suffix w d x).isInfix)
    · have hs := slide_suffix w d (x ++ [c])
      have hsuf2 : CPUMHZ <:+ w ++ d :: (x ++ [c]) := by simpa using hsuf
      by_cases h7 : w.length = 7
      · apply List.suffix_of_suffix_length_le hsuf2 (by simpa using hs)
        simp [h7, CPUMHZ]
        omega
      · simp only [h7, if_false] at hs ⊢
        simpa using hsuf

/-- Without an occurrence of the label the outer loop runs to the end of the
text and leaves the buffer state as it was. -/
theorem scanLoop_noHit (st : BufState) (x : List Char) :
    ∀ w : List Char, w.length ≤ 7 → ¬ CPUMHZ <:+: w ++ x → scanLoop w st x = some st := by
  induction x with
  | nil => intro w _ _; rw [scanLoop]
  | cons d x ih =>
    intro w hw hno
    rw [scanLoop_cons]
    have hne : ¬ (if w.length = 7 then w.tail ++ [d] else w ++ [d]) = CPUMHZ := by
      intro h
      apply hno
      obtain ⟨t, ht⟩ := (slide_eq_label_iff w d hw).1 h
      exact ⟨t, x, by rw [ht]; simp⟩
    rw [if_neg hne]
    apply ih _ (slide_length_le w d hw)
    intro hin
    exact hno (hin.trans (slide_suffix w d x).isInfix)

/-- The label has no proper overlap with itself: a text without the label,
followed by the first six characters of the label, still has no occurrence. -/
theorem no_label_append_init (p : List Char) (h : ¬ CPUMHZ <:+: p) :
    ¬ CPUMHZ <:+: p ++ ['c', 'p', 'u', ' ', 'M', 'H'] := by
  rintro ⟨a, b, hab⟩
  rcases List.append_eq_append_iff.1 hab with ⟨a1, hp, _⟩ | ⟨c1, hc, hm⟩
  · exact h ⟨a, a1, hp.symm⟩
  · by_cases hc1 : c1 = []
    · subst hc1
      exact h ⟨a, [], by simpa using hc⟩
    · have hz : (a ++ CPUMHZ).getLast (by simp [CPUMHZ]) = 'z' := by
        simp [CPUMHZ]
      have hz2 : (p ++ c1).getLast (by simp [hc1]) = 'z' := by
        rw [← hz]; congr 1; exact hc.symm
      have hz3 : c1.getLast hc1 = 'z' := by
        rw [← hz2, List.getLast_append_of_ne_nil]
      have hmem : 'z' ∈ c1 := hz3 ▸ List.getLast_mem hc1
      have : 'z' ∈ ['c', 'p', 'u', ' ', 'M', 'H'] := by
        rw [hm]; exact List.mem_append_left _ hmem
      revert this
      decide

/-- From a cleared window, a text without the label followed by the label
leads to the skip loop right after the label. -/
theorem scanLoop_label (st : BufState) (p rest : List Char) (h : ¬ CPUMHZ <:+: p) :
    scanLoop [] st (p ++ CPUMHZ ++ rest) = skipLoop st rest := by
  have := scanLoop_hit st (p ++ ['c', 'p', 'u', ' ', 'M', 'H']) 'z' rest [] (by simp)
    (by simpa using no_label_append_init p h) ⟨p, by simp [CPUMHZ]⟩
  simpa [CPUMHZ] using this

theorem skipLoop_nodigit (st : BufState) (t : List Char) (h : ∀ c ∈ t, isdigit c = false) :
    skipLoop st t = some st := by
  induction t with
  | nil => rw [skipLoop]
  | cons c t ih =>
    rw [skipLoop, if_neg (by simp [h c (List.mem_cons_self _ _)])]
    exact ih fun c hc => h c (List.mem_cons_of_mem _ hc)

theorem skipLoop_digit (st : BufState) (sep : List Char) (d : Char) (rest : List Char)
    (h : ∀ c ∈ sep, isdigit c = false) (hd : isdigit d = true) :
    skipLoop st (sep ++ d :: rest) = collectLoop st d rest := by
  induction sep with
  | nil => rw [List.nil_append, skipLoop, if_pos hd]
  | cons c t ih =>
    rw [List.cons_append, skipLoop, if_neg (by simp [h c (List.mem_cons_self _ _)])]
    exact ih fun c hc => h c (List.mem_cons_of_mem _ hc)

theorem collectLoop_line (body : List Char) (rest : List Char) (h : '\n' ∉ body) :
    ∀ (st : BufState) (c : Char), collectLoop st c (body ++ '\n' :: rest) =
      (writeAll st (c :: body ++ ['\n'])).bind fun st1 => scanLoop [] st1 rest := by
  induction body with
  | nil =>
    intro st c
    simp only [List.nil_append, collectLoop, writeAll, List.cons_append]
    cases writetobuffer st c with
    | none => simp
    | some st1 =>
      simp only [if_true, Option.some_bind]
      cases writetobuffer st1 '\n' <;> simp
  | cons d body ih =>
    intro st c
    have hd : d ≠ '\n' := fun e => h (e ▸ List.mem_cons_self _ _)
    have hb : '\n' ∉ body := fun e => h (List.mem_cons_of_mem _ e)
    simp only [List.cons_append, collectLoop]
    rw [writeAll]
    cases writetobuffer st c with
    | none => simp
    | some st1 =>
      simp only [if_neg hd, Option.some_bind]
      simpa using ih hb st1 d

theorem collectLoop_eof (body : List Char) (h : '\n' ∉ body) :
    ∀ (st : BufState) (c : Char), collectLoop st c body = writeAll st (c :: body ++ ['\n']) := by
  induction body with
  | nil =>
    intro st c
    simp only [collectLoop, writeAll, List.cons_append, List.nil_append]
    cases writetobuffer st c with
    | none => simp
    | some st1 => cases h1 : writetobuffer st1 '\n' <;> simp [h1]
  | cons d body ih =>
    intro st c
    have hd : d ≠ '\n' := fun e => h (e ▸ List.mem_cons_self _ _)
    have hb : '\n' ∉ body := fun e => h (List.mem_cons_of_mem _ e)
    simp only [List.cons_append, collectLoop]
    rw [writeAll]
    cases writetobuffer st c with
    | none => simp
    | some st1 =>
      simp only [if_neg hd, Option.some_bind]
      simpa using ih hb st1 d

/-- One well-formed record: its number and a newline are written, and the outer
loop goes on with a cleared window behind the record. -/
theorem scanLoop_record (st : BufState) (r : Record) (rest : List Char) (h : r.WellFormed) :
    scanLoop [] st (r.text ++ rest) =
      (writeAll st (r.num ++ ['\n'])).bind fun st1 => scanLoop [] st1 rest := by
  obtain ⟨hpre, hsep, hnum, hnl⟩ := h
  cases hn : r.num with
  | nil => simp [hn, startsWithDigit] at hnum
  | cons d body =>
    rw [hn] at hnum hnl
    have hd : isdigit d = true := by simpa [startsWithDigit] using hnum
    have hb : '\n' ∉ body := fun e => hnl (List.mem_cons_of_mem _ e)
    have e1 : r.text ++ rest = r.pre ++ CPUMHZ ++ (r.sep ++ d :: (body ++ '\n' :: rest)) := by
      simp [Record.text, hn]
    rw [e1, scanLoop_label st _ _ hpre, skipLoop_digit st _ _ _ hsep hd,
      collectLoop_line body rest hb]

/-! ### Stores within and beyond the capacity -/

theorem writetobuffer_fits (st : BufState) (mem : List Char) (c : Char)
    (hb : st.buffer = some mem) (h1 : st.filelen < st.buflen) (h2 : st.buflen ≤ mem.length) :
    writetobuffer st c =
      some { filelen := st.filelen + 1, buflen := st.buflen,
             buffer := some (mem.set st.filelen c) } := by
  unfold writetobuffer
  rw [hb]
  simp only
  rw [if_neg (by omega), if_pos (by omega)]

/-- While the characters fit into the capacity `*buflen`, they land in the
caller's block one after the other from index `*filelen` on, and the rest of
the block is untouched. -/
theorem writeAll_fits (cs : List Char) :
    ∀ (st : BufState) (mem : List Char), st.buffer = some mem →
      st.filelen + cs.length ≤ st.buflen → st.buflen ≤ mem.length →
      writeAll st cs =
        some { filelen := st.filelen + cs.length, buflen := st.buflen,
               buffer := some (mem.take st.filelen ++ cs ++
                 mem.drop (st.filelen + cs.length)) } := by
  induction cs with
  | nil =>
    intro st mem hb _ _
    cases st
    simp only [writeAll, List.length_nil, Nat.add_zero, List.append_nil,
      List.take_append_drop] at *
    rw [hb]
  | cons c cs ih =>
    intro st mem hb h1 h2
    simp only [List.length_cons] at h1
    rw [writeAll, writetobuffer_fits st mem c hb (by omega) h2, Option.some_bind]
    rw [ih _ (mem.set st.filelen c) rfl (by simp only; omega) (by simpa using h2)]
    have hlt : st.filelen < mem.length := by omega
    have e1 : (mem.set st.filelen c).take (st.filelen + 1) = mem.take st.filelen ++ [c] := by
      rw [List.set_eq_take_cons_drop c hlt, List.take_append_eq_append_take]
      simp [List.length_take, Nat.min_eq_left (Nat.le_of_lt hlt)]
    have e2 : (mem.set st.filelen c).drop (st.filelen + 1 + cs.length) =
        mem.drop (st.filelen + 1 + cs.length) :=
      List.drop_set_of_lt c mem (by omega)
    simp only [e1, e2, List.length_cons]
    congr 2
    · omega
    · congr 1
      simp [Nat.add_assoc, Nat.add_comm 1]

theorem writeAll_gone (st : BufState) (c : Char) (cs : List Char) (hb : st.buffer = none) :
    writeAll st (c :: cs) = none := by
  simp [writeAll, writetobuffer, hb]

/-- Two characters beyond the capacity cannot be stored: the first of them makes
`writetobuffer` reallocate, which leaves the caller without a block, and the
next store goes through the caller's stale pointer. -/
theorem writeAll_overflow (cs : List Char) :
    ∀ st : BufState, st.filelen ≤ st.buflen → st.buflen + 2 ≤ st.filelen + cs.length →
      writeAll st cs = none := by
  induction cs with
  | nil => intro st h1 h2; simp at h2; omega
  | cons c cs ih =>
    intro st h1 h2
    simp only [List.length_cons] at h2
    rw [writeAll]
    unfold writetobuffer
    cases hb : st.buffer with
    | none => simp
    | some mem =>
      simp only
      by_cases he : st.filelen = st.buflen
      · rw [if_pos he]
        by_cases hz : st.filelen < st.buflen * 2
        · rw [if_pos hz, Option.some_bind]
          cases cs with
          | nil => simp at h2; omega
          | cons d ds => exact writeAll_gone _ d ds rfl
        · rw [if_neg hz]; rfl
      · rw [if_neg he]
        by_cases hl : st.filelen < mem.length
        · rw [if_pos hl, Option.some_bind]
          exact ih _ (by simp only; omega) (by simp only; omega)
        · rw [if_neg hl]; rfl

theorem tokensText_length_replicate (t : List Char) (n : Nat) :
    (tokensText (List.replicate n t)).length = n * (t.length + 1) := by
  induction n with
  | zero => simp [tokensText]
  | succ n ih =>
    simp only [List.replicate_succ, tokensText, List.length_append, List.length_cons, ih]
    ring

/-- The scanner on well-formed records followed by more text: the numbers are
written, then the outer loop continues on the text with a cleared window. -/
theorem scanLoop_records_append (rs : List Record) (rest : List Char)
    (h : ∀ r ∈ rs, r.WellFormed) :
    ∀ st : BufState, scanLoop [] st (recordsText rs ++ rest) =
      (writeAll st (tokensText (rs.map Record.num))).bind fun st1 => scanLoop [] st1 rest := by
  induction rs with
  | nil => intro st; simp [recordsText, tokensText, writeAll]
  | cons r rs ih =>
    intro st
    have hr := h r (List.mem_cons_self _ _)
    have hrs := ih fun r hr => h r (List.mem_cons_of_mem _ hr)
    simp only [recordsText, List.map_cons, tokensText, List.append_assoc]
    rw [scanLoop_record st r _ hr]
    have : r.num ++ '\n' :: tokensText (rs.map Record.num) =
        (r.num ++ ['\n']) ++ tokensText (rs.map Record.num) := by simp
    rw [this, writeAll_append st (r.num ++ ['\n'])]
    cases writeAll st (r.num ++ ['\n']) with
    | none => rfl
    | some st1 => simpa using hrs st1


theorem readcpuinfo_some (text : List Char) (st : BufState) :
    readcpuinfo (some text) st = Outcome.ofOption (scanLoop [] st text) := by
  cases h : scanLoop [] st text <;> simp [readcpuinfo, h, Outcome.ofOption]

theorem readcpuinfo_noLabel (text : List Char) (st : BufState) (h : ¬ CPUMHZ <:+: text) :
    readcpuinfo (some text) st = Outcome.ok st := by
  rw [readcpuinfo_some, scanLoop_noHit st text [] (by simp) (by simpa using h)]
  rfl

theorem readcpuinfo_label_nodigit (p t : List Char) (st : BufState) (hp : ¬ CPUMHZ <:+: p)
    (ht : ∀ c ∈ t, isdigit c = false) :
    readcpuinfo (some (p ++ CPUMHZ ++ t)) st = Outcome.ok st := by
  rw [readcpuinfo_some, scanLoop_label st p t hp, skipLoop_nodigit st t ht]
  rfl

/-! ### Every text is read as `Scanned` describes -/

theorem Scanned.sound {s : List Char} {toks : List (List Char)} (h : Scanned s toks) :
    ∀ st : BufState, scanLoop [] st s = writeAll st (tokensText toks) := by
  induction h with
  | noLabel s hs =>
    intro st
    rw [scanLoop_noHit st s [] (by simp) (by simpa using hs)]
    rfl
  | noDigit p gap hp hgap =>
    intro st
    rw [scanLoop_label st p gap hp, skipLoop_nodigit st gap hgap]
    rfl
  | lastToken p gap d body hp hgap hd hbody =>
    intro st
    rw [List.append_assoc, scanLoop_label st p _ hp, skipLoop_digit st gap d body hgap hd,
      collectLoop_eof body hbody]
    simp [tokensText]
  | token p gap d body s toks hp hgap hd hbody _ ih =>
    intro st
    have e : p ++ CPUMHZ ++ gap ++ d :: body ++ '\n' :: s =
        p ++ CPUMHZ ++ (gap ++ d :: (body ++ '\n' :: s)) := by simp
    rw [e, scanLoop_label st p _ hp, skipLoop_digit st gap d _ hgap hd,
      collectLoop_line body s hbody]
    have e2 : tokensText ((d :: body) :: toks) = (d :: body ++ ['\n']) ++ tokensText toks := by
      simp [tokensText]
    rw [e2, writeAll_append st (d :: body ++ ['\n']) (tokensText toks)]
    cases writeAll st (d :: body ++ ['\n']) with
    | none => rfl
    | some st1 => simpa using ih st1

theorem first_label (n : Nat) : ∀ a b : List Char, a.length ≤ n →
    ∃ p r, a ++ CPUMHZ ++ b = p ++ CPUMHZ ++ r ∧ ¬ CPUMHZ <:+: p := by
  induction n with
  | zero =>
    intro a b ha
    have : a = [] := List.length_eq_zero.1 (Nat.le_zero.1 ha)
    subst this
    exact ⟨[], b, rfl, by decide⟩
  | succ n ih =>
    intro a b ha
    by_cases hin : CPUMHZ <:+: a
    · obtain ⟨a1, b1, hab⟩ := hin
      have hlen : a1.length ≤ n := by
        have := congrArg List.length hab
        simp [CPUMHZ] at this
        omega
      obtain ⟨p, r, hpr, hp⟩ := ih a1 (b1 ++ CPUMHZ ++ b) hlen
      refine ⟨p, r, ?_, hp⟩
      rw [← hpr, ← hab]
      simp
    · exact ⟨a, b, rfl, hin⟩

theorem first_digit (r : List Char) :
    (∀ c ∈ r, isdigit c = false) ∨
      ∃ gap d rest, r = gap ++ d :: rest ∧ (∀ c ∈ gap, isdigit c = false) ∧ isdigit d = true := by
  induction r with
  | nil => left; simp
  | cons c r ih =>
    by_cases hc : isdigit c = true
    · right; exact ⟨[], c, r, rfl, by simp, hc⟩
    · have hc2 : isdigit c = false := by simpa using hc
      rcases ih with h | ⟨gap, d, rest, hr, hgap, hd⟩
      · left
        intro x hx
        rcases List.mem_cons.1 hx with rfl | hx
        · exact hc2
        · exact h x hx
      · right
        refine ⟨c :: gap, d, rest, by rw [hr]; rfl, ?_, hd⟩
        intro x hx
        rcases List.mem_cons.1 hx with rfl | hx
        · exact hc2
        · exact hgap x hx

theorem first_newline (r : List Char) :
    '\n' ∉ r ∨ ∃ body rest, r = body ++ '\n' :: rest ∧ '\n' ∉ body := by
  induction r with
  | nil => left; simp
  | cons c r ih =>
    by_cases hc : c = '\n'
    · right; exact ⟨[], r, by rw [hc]; rfl, by simp⟩
    · rcases ih with h | ⟨body, rest, hr, hbody⟩
      · left
        intro hx
        rcases List.mem_cons.1 hx with h1 | h1
        · exact hc h1.symm
        · exact h h1
      · right
        refine ⟨c :: body, rest, by rw [hr]; rfl, ?_⟩
        intro hx
        rcases List.mem_cons.1 hx with h1 | h1
        · exact hc h1.symm
        · exact hbody h1

theorem Scanned.complete (n : Nat) : ∀ s : List Char, s.length ≤ n → ∃ toks, Scanned s toks := by
  induction n with
  | zero =>
    intro s hs
    have : s = [] := List.length_eq_zero.1 (Nat.le_zero.1 hs)
    subst this
    exact ⟨[], Scanned.noLabel [] (by decide)⟩
  | succ n ih =>
    intro s hs
    by_cases hin : CPUMHZ <:+: s
    · obtain ⟨a, b, hab⟩ := hin
      obtain ⟨p, r, hpr, hp⟩ := first_label a.length a b (Nat.le_refl _)
      rw [hab] at hpr
      rcases first_digit r with hnd | ⟨gap, d, rest, hr, hgap, hd⟩
      · exact ⟨[], hpr ▸ Scanned.noDigit p r hp hnd⟩
      · rcases first_newline rest with hnl | ⟨body, s1, hrest, hbody⟩
        · refine ⟨[d :: rest], ?_⟩
          have := Scanned.lastToken p gap d rest hp hgap hd hnl
          rw [hpr, hr]
          simpa using this
        · have hlen : s1.length ≤ n := by
            have := congrArg List.length hpr
            rw [hr, hrest] at this
            simp at this
            omega
          obtain ⟨toks, htoks⟩ := ih s1 hlen
          refine ⟨(d :: body) :: toks, ?_⟩
          have := Scanned.token p gap d body s1 toks hp hgap hd hbody htoks
          rw [hpr, hr, hrest]
          simpa using this
    · exact ⟨[], Scanned.noLabel s hin⟩

theorem Scanned.tokens_shape {s : List Char} {toks : List (List Char)} (h : Scanned s toks) :
    ∀ t ∈ toks, startsWithDigit t = true ∧ '\n' ∉ t ∧ t <:+: s := by
  induction h with
  | noLabel s _ => simp
  | noDigit p gap _ _ => simp
  | lastToken p gap d body _ _ hd hbody =>
    intro t ht
    rw [List.mem_singleton] at ht
    subst ht
    refine ⟨by simpa [startsWithDigit] using hd, ?_, ⟨p ++ CPUMHZ ++ gap, [], by simp⟩⟩
    intro hx
    rcases List.mem_cons.1 hx with h1 | h1
    · rw [← h1] at hd; exact absurd hd (by decide)
    · exact hbody h1
  | token p gap d body s toks _ _ hd hbody _ ih =>
    intro t ht
    rcases List.mem_cons.1 ht with rfl | ht
    · refine ⟨by simpa [startsWithDigit] using hd, ?_,
        ⟨p ++ CPUMHZ ++ gap, '\n' :: s, by simp⟩⟩
      intro hx
      rcases List.mem_cons.1 hx with h1 | h1
      · rw [← h1] at hd; exact absurd hd (by decide)
      · exact hbody h1
    · obtain ⟨h1, h2, h3⟩ := ih t ht
      exact ⟨h1, h2, h3.trans ⟨p ++ CPUMHZ ++ gap ++ d :: body ++ ['\n'], [], by simp⟩⟩


/-! ### Well-formed records (C1) -/

/-- On well-formed records whose numbers fit into the block that `main`
allocated, `readcpuinfo` started with `filelen = 0` leaves exactly the numbers,
each followed by a newline, in the order met, at the start of the block. -/
theorem readcpuinfo_records_fits (rs : List Record) (junk : List Char)
    (h : ∀ r ∈ rs, r.WellFormed)
    (hcap : (tokensText (rs.map Record.num)).length ≤ junk.length) :
    readcpuinfo (some (recordsText rs)) (freshState junk) =
      Outcome.ok { filelen := (tokensText (rs.map Record.num)).length,
                   buflen := junk.length,
                   buffer := some (tokensText (rs.map Record.num) ++
                     junk.drop (tokensText (rs.map Record.num)).length) } := by
  have h1 := scanLoop_records_append rs [] h (freshState junk)
  rw [List.append_nil] at h1
  rw [readcpuinfo_some, h1,
    writeAll_fits _ (freshState junk) junk rfl (by simpa [freshState] using hcap)
      (by simp [freshState])]
  simp [freshState, scanLoop, Outcome.ofOption]

/-- The three-record example, scanned into the 10240-byte block of `main`. -/
theorem readcpuinfo_three_records :
    readcpuinfo
      (some "cpu MHz : 1200.50\ncpu MHz : 3400.00\ncpu MHz : 1200.50\n".toList)
      (freshState (List.replicate 10240 '?')) =
    Outcome.ok { filelen := 24, buflen := 10240,
                 buffer := some ("1200.50\n3400.00\n1200.50\n".toList ++
                   List.replicate 10216 '?') } := by
  have e : "cpu MHz : 1200.50\ncpu MHz : 3400.00\ncpu MHz : 1200.50\n".toList =
      recordsText
        [⟨[], [' ', ':', ' '], ['1', '2', '0', '0', '.', '5', '0']⟩,
         ⟨[], [' ', ':', ' '], ['3', '4', '0', '0', '.', '0', '0']⟩,
         ⟨[], [' ', ':', ' '], ['1', '2', '0', '0', '.', '5', '0']⟩] := by decide
  rw [e, readcpuinfo_records_fits _ (List.replicate 10240 '?') (by decide)
    (by rw [List.length_replicate]; decide), List.length_replicate, List.drop_replicate]
  rfl

/-- Claim C1, at an input the claim covers but the code does not: 1139 records
in the form `/proc/cpuinfo` prints them make 10251 bytes of output, more than
the 10240 bytes `main` reserves. `writetobuffer` reallocates but the new
address is lost with its local parameter, so the next store goes through the
caller's stale pointer: the run is undefined instead of producing the 1139
numbers. -/
theorem readcpuinfo_records_overflow (junk : List Char) :
    readcpuinfo (some (recordsText (List.replicate 1139 cpuinfoRecord)))
      { filelen := 0, buflen := 10240, buffer := some junk } = Outcome.undefined := by
  have hwf : ∀ r ∈ List.replicate 1139 cpuinfoRecord, r.WellFormed := by
    intro r hr
    rw [List.eq_of_mem_replicate hr]
    decide
  have h1 := scanLoop_records_append _ [] hwf
    { filelen := 0, buflen := 10240, buffer := some junk }
  rw [List.append_nil] at h1
  rw [readcpuinfo_some, h1, List.map_replicate, writeAll_overflow]
  · rfl
  · simp
  · rw [tokensText_length_replicate]
    simp [cpuinfoRecord]

/-! ### Tokens on arbitrary text (C4, C5) -/

/-- Claim C4 fails as stated: after the label and the digit `1` the letter `x`
is copied into the buffer; the token `1x` is no decimal literal. -/
theorem token_not_decimal :
    readcpuinfo (some "cpu MHz: 1x\n".toList) (freshState (List.replicate 10240 '?')) =
        Outcome.ok { filelen := 3, buflen := 10240,
                     buffer := some (['1', 'x', '\n'] ++ List.replicate 10237 '?') } ∧
      isDecimalLiteral ['1', 'x'] = false := by
  have e : "cpu MHz: 1x\n".toList = recordsText [⟨[], [':', ' '], ['1', 'x']⟩] := by decide
  refine ⟨?_, by decide⟩
  rw [e, readcpuinfo_records_fits _ (List.replicate 10240 '?') (by decide)
    (by rw [List.length_replicate]; decide), List.length_replicate, List.drop_replicate]
  rfl

/-- Claim C4 as amended. Every text `text` is read as `Scanned` describes: each
token starts at the first decimal digit after a matched label and is the text
from there up to the next newline or the end of the stream, so it starts with
a digit, has no newline and stands in the stream as it is; `readcpuinfo` stores
exactly these tokens, each followed by a newline. Nothing else is asked of
a token: whatever the characters `body` are that stand between the first digit
`d` and the end of the line (or of the stream), they are stored as they are,
and the scan goes on behind the newline with a cleared window. -/
theorem tokens_verbatim (text p gap : List Char) (d : Char) (body rest : List Char)
    (hp : ¬ CPUMHZ <:+: p) (hgap : ∀ c ∈ gap, isdigit c = false)
    (hd : isdigit d = true) (hbody : '\n' ∉ body) :
    (∃ toks : List (List Char), Scanned text toks ∧
      (∀ t ∈ toks, startsWithDigit t = true ∧ '\n' ∉ t ∧ t <:+: text) ∧
      ∀ st : BufState,
        readcpuinfo (some text) st = Outcome.ofOption (writeAll st (tokensText toks))) ∧
    (∀ st : BufState,
      readcpuinfo (some (p ++ CPUMHZ ++ gap ++ d :: body)) st =
        Outcome.ofOption (writeAll st (d :: body ++ ['\n']))) ∧
    (∀ st : BufState,
      readcpuinfo (some (p ++ CPUMHZ ++ gap ++ d :: body ++ '\n' :: rest)) st =
        Outcome.ofOption
          ((writeAll st (d :: body ++ ['\n'])).bind fun st1 => scanLoop [] st1 rest)) ∧
    (isDecimalLiteral (d :: body) = true ↔
      (∀ c ∈ body, isdigit c = true ∨ c = '.') ∧ body.count '.' ≤ 1) := by
  refine ⟨?_, ?_, ?_, ?_⟩
  · obtain ⟨toks, h⟩ := Scanned.complete text.length text (Nat.le_refl _)
    refine ⟨toks, h, h.tokens_shape, fun st => ?_⟩
    rw [readcpuinfo_some, h.sound st]
  · intro st
    rw [readcpuinfo_some, (Scanned.lastToken p gap d body hp hgap hd hbody).sound st]
    simp [tokensText]
  · intro st
    have e : p ++ CPUMHZ ++ gap ++ d :: body ++ '\n' :: rest =
        p ++ CPUMHZ ++ (gap ++ d :: (body ++ '\n' :: rest)) := by simp
    rw [readcpuinfo_some, e, scanLoop_label st p _ hp, skipLoop_digit st gap d _ hgap hd,
      collectLoop_line body rest hbody]
  · have hdot : d ≠ '.' := by
      intro h
      rw [h] at hd
      exact absurd hd (by decide)
    simp [isDecimalLiteral, hd, List.count_cons_of_ne hdot.symm]

theorem tokens_verbatim_witness :
    (¬ CPUMHZ <:+: ['x']) ∧ (∀ c ∈ [':', ' '], isdigit c = false) ∧ isdigit '1' = true ∧
      '\n' ∉ ['x', '.', '.'] ∧
    ((∃ toks : List (List Char), Scanned "cpu MHz: 1x\n".toList toks ∧
      (∀ t ∈ toks, startsWithDigit t = true ∧ '\n' ∉ t ∧ t <:+: "cpu MHz: 1x\n".toList) ∧
      ∀ st : BufState,
        readcpuinfo (some "cpu MHz: 1x\n".toList) st =
          Outcome.ofOption (writeAll st (tokensText toks))) ∧
    (∀ st : BufState,
      readcpuinfo (some (['x'] ++ CPUMHZ ++ [':', ' '] ++ '1' :: ['x', '.', '.'])) st =
        Outcome.ofOption (writeAll st ('1' :: ['x', '.', '.'] ++ ['\n']))) ∧
    (∀ st : BufState,
      readcpuinfo
          (some (['x'] ++ CPUMHZ ++ [':', ' '] ++ '1' :: ['x', '.', '.'] ++ '\n' :: ['y'])) st =
        Outcome.ofOption
          ((writeAll st ('1' :: ['x', '.', '.'] ++ ['\n'])).bind
            fun st1 => scanLoop [] st1 ['y'])) ∧
    (isDecimalLiteral ('1' :: ['x', '.', '.']) = true ↔
      (∀ c ∈ ['x', '.', '.'], isdigit c = true ∨ c = '.') ∧
        List.count '.' ['x', '.', '.'] ≤ 1)) :=
  ⟨by decide, by decide, by decide, by decide,
    tokens_verbatim "cpu MHz: 1x\n".toList ['x'] [':', ' '] '1' ['x', '.', '.'] ['y']
      (by decide) (by decide) (by decide) (by decide)⟩


/-- Claim C5 fails as stated: the label is followed by a colon and a newline,
and the digit `5` stands on the next line, yet `5` is the token stored for this
label. -/
theorem token_after_newline :
    readcpuinfo (some "cpu MHz:\n5\n".toList) (freshState (List.replicate 10240 '?')) =
      Outcome.ok { filelen := 2, buflen := 10240,
                   buffer := some (['5', '\n'] ++ List.replicate 10238 '?') } := by
  have e : "cpu MHz:\n5\n".toList = recordsText [⟨[], [':', '\n'], ['5']⟩] := by decide
  rw [e, readcpuinfo_records_fits _ (List.replicate 10240 '?') (by decide)
    (by rw [List.length_replicate]; decide), List.length_replicate, List.drop_replicate]
  rfl

/-- Claim C5 as amended: every text is read as `Scanned` describes, so between
a matched label and the first character of its token there is no decimal
digit; any other character, newlines included, may stand there. -/
theorem token_at_first_digit (text : List Char) :
    ∃ toks : List (List Char), Scanned text toks ∧
      ∀ st : BufState,
        readcpuinfo (some text) st = Outcome.ofOption (writeAll st (tokensText toks)) := by
  obtain ⟨toks, h⟩ := Scanned.complete text.length text (Nat.le_refl _)
  refine ⟨toks, h, fun st => ?_⟩
  rw [readcpuinfo_some, h.sound st]

/-! ### Labels without a number, leading content (C7, C8) -/

theorem scan_label_without_digit (rs : List Record) (p t : List Char) (st : BufState)
    (hrs : ∀ r ∈ rs, r.WellFormed) (hp : ¬ CPUMHZ <:+: p)
    (ht : ∀ c ∈ t, isdigit c = false) :
    readcpuinfo (some (recordsText rs ++ (p ++ CPUMHZ ++ t))) st =
      readcpuinfo (some (recordsText rs)) st := by
  have h1 := scanLoop_records_append rs (p ++ CPUMHZ ++ t) hrs st
  have h2 := scanLoop_records_append rs [] hrs st
  rw [List.append_nil] at h2
  rw [readcpuinfo_some, readcpuinfo_some, h1, h2]
  cases writeAll st (tokensText (rs.map Record.num)) with
  | none => rfl
  | some st1 =>
    simp only [Option.some_bind]
    rw [scanLoop_label st1 p t hp, skipLoop_nodigit st1 t ht]
    rfl

/-- Claim C7: a label after which no decimal digit follows yields no token.
With `p` free of the label and `t` free of digits, the text `p ++ "cpu MHz" ++ t`
leaves the buffer state untouched, and either mode of `printcpuinfo` ends on it
as on any text `s0` without the label. After well-formed records the same text
changes nothing: the scan ends as on the records alone, and so does
`printcpuinfo`. -/
theorem label_without_digit_skipped {V : Type} [LinearOrder V] [Zero V]
    (qsort : (cpuclock V → cpuclock V → Int) → List (cpuclock V) → List (cpuclock V))
    (strtod : List Char → V) (fmt : V → List Char)
    (rs : List Record) (p t : List Char) (st : BufState) (displayall : Bool)
    (hrs : ∀ r ∈ rs, r.WellFormed) (hp : ¬ CPUMHZ <:+: p)
    (ht : ∀ c ∈ t, isdigit c = false) :
    readcpuinfo (some (p ++ CPUMHZ ++ t)) st = Outcome.ok st ∧
      (∀ s0 : List Char, ¬ CPUMHZ <:+: s0 →
        printcpuinfo qsort strtod fmt (some (p ++ CPUMHZ ++ t)) st displayall =
          printcpuinfo qsort strtod fmt (some s0) st displayall) ∧
      readcpuinfo (some (recordsText rs ++ (p ++ CPUMHZ ++ t))) st =
        readcpuinfo (some (recordsText rs)) st ∧
      printcpuinfo qsort strtod fmt (some (recordsText rs ++ (p ++ CPUMHZ ++ t))) st displayall =
        printcpuinfo qsort strtod fmt (some (recordsText rs)) st displayall := by
  refine ⟨readcpuinfo_label_nodigit p t st hp ht, ?_,
    scan_label_without_digit rs p t st hrs hp ht, ?_⟩
  · intro s0 h0
    unfold printcpuinfo
    rw [readcpuinfo_label_nodigit p t _ hp ht, readcpuinfo_noLabel s0 _ h0]
  · unfold printcpuinfo
    rw [scan_label_without_digit rs p t _ hrs hp ht]

theorem label_without_digit_skipped_witness :
    readcpuinfo (some (['x'] ++ CPUMHZ ++ [' ', ':', '\n']))
        (freshState (List.replicate 16 '?')) = Outcome.ok (freshState (List.replicate 16 '?')) ∧
      (∀ s0 : List Char, ¬ CPUMHZ <:+: s0 →
        printcpuinfo qsortStable strtodRef fmt2 (some (['x'] ++ CPUMHZ ++ [' ', ':', '\n']))
            (freshState (List.replicate 16 '?')) true =
          printcpuinfo qsortStable strtodRef fmt2 (some s0)
            (freshState (List.replicate 16 '?')) true) ∧
      readcpuinfo (some (recordsText [cpuinfoRecord] ++ (['x'] ++ CPUMHZ ++ [' ', ':', '\n'])))
        (freshState (List.replicate 16 '?')) =
        readcpuinfo (some (recordsText [cpuinfoRecord])) (freshState (List.replicate 16 '?')) ∧
      printcpuinfo qsortStable strtodRef fmt2
        (some (recordsText [cpuinfoRecord] ++ (['x'] ++ CPUMHZ ++ [' ', ':', '\n'])))
        (freshState (List.replicate 16 '?')) true =
        printcpuinfo qsortStable strtodRef fmt2 (some (recordsText [cpuinfoRecord]))
          (freshState (List.replicate 16 '?')) true :=
  label_without_digit_skipped qsortStable strtodRef fmt2 [cpuinfoRecord] ['x']
    [' ', ':', '\n'] (freshState (List.replicate 16 '?')) true (by decide) (by decide)
    (by decide)

/-- Claim C8: text without the label in front of a text that begins with the
label does not change what `readcpuinfo` does; the label may start anywhere. -/
theorem leading_content_tolerated (p r : List Char) (st : BufState)
    (hp : ¬ CPUMHZ <:+: p) :
    readcpuinfo (some (p ++ (CPUMHZ ++ r))) st = readcpuinfo (some (CPUMHZ ++ r)) st := by
  have h1 := scanLoop_label st p r hp
  have h2 := scanLoop_label st [] r (by decide)
  rw [List.nil_append] at h2
  rw [readcpuinfo_some, readcpuinfo_some, ← List.append_assoc, h1, h2]

theorem leading_content_tolerated_witness :
    readcpuinfo (some ("ab\ncpu".toList ++ (CPUMHZ ++ " : 5\n".toList)))
        (freshState ['?', '?']) =
      readcpuinfo (some (CPUMHZ ++ " : 5\n".toList)) (freshState ['?', '?']) :=
  leading_content_tolerated _ _ _ (by decide)


/-! ## Theorems: the aggregators -/

theorem tokensText_length_pos (t : List Char) (ts : List (List Char)) :
    0 < (tokensText (t :: ts)).length := by
  simp [tokensText]

theorem not_newline_of_decimal (t : List Char) (h : isDecimalLiteral t = true) : '\n' ∉ t := by
  intro hmem
  simp only [isDecimalLiteral, Bool.and_eq_true, List.all_eq_true] at h
  have := h.1.1 '\n' hmem
  revert this
  decide

/-- One token of the buffer in the loop of `printcpumax`: the inner loop runs
to the newline, `strtod(startptr)` is compared with `max`, and the next round
starts behind the newline if that is still below `len`. -/
theorem maxLoop_token {V : Type} [LinearOrder V] (strtod : List Char → V) (len : Nat)
    (startptr : List Char) (max : V) (mem : List Char) (t : List Char) (h : '\n' ∉ t) :
    ∀ i : Nat, maxLoop strtod len startptr max i (t ++ '\n' :: mem) =
      if i + t.length + 1 < len then
        maxLoop strtod len mem (if max < strtod startptr then strtod startptr else max)
          (i + t.length + 1) mem
      else some (if max < strtod startptr then strtod startptr else max) := by
  induction t with
  | nil => intro i; simp [maxLoop]
  | cons c t ih =>
    intro i
    have hc : c ≠ '\n' := fun e => h (e ▸ List.mem_cons_self _ _)
    have ht : '\n' ∉ t := fun e => h (List.mem_cons_of_mem _ e)
    rw [List.cons_append, maxLoop, if_pos hc, ih ht (i + 1)]
    simp only [List.length_cons]
    have : i + 1 + t.length + 1 = i + (t.length + 1) + 1 := by omega
    rw [this]

theorem maxLoop_tokens {V : Type} [LinearOrder V] (strtod : List Char → V) (len : Nat)
    (junk : List Char) (toks : List (List Char)) (hnl : ∀ t ∈ toks, '\n' ∉ t) :
    toks ≠ [] → ∀ (i : Nat) (max : V), i + (tokensText toks).length = len →
      maxLoop strtod len (tokensText toks ++ junk) max i (tokensText toks ++ junk) =
        some ((parsedValues strtod toks junk).foldl (fun m v => if m < v then v else m) max) := by
  induction toks with
  | nil => intro h; exact absurd rfl h
  | cons t ts ih =>
    intro _ i max hlen
    have ht : '\n' ∉ t := hnl t (List.mem_cons_self _ _)
    have hts : ∀ t ∈ ts, '\n' ∉ t := fun x hx => hnl x (List.mem_cons_of_mem _ hx)
    have e : tokensText (t :: ts) ++ junk = t ++ '\n' :: (tokensText ts ++ junk) := by
      simp [tokensText]
    have hl : (tokensText (t :: ts)).length = t.length + 1 + (tokensText ts).length := by
      simp [tokensText]; omega
    rw [hl] at hlen
    conv_lhs => rw [e, maxLoop_token strtod len _ max _ t ht i]
    rw [← e]
    cases ts with
    | nil =>
      have h0 : (tokensText ([] : List (List Char))).length = 0 := rfl
      rw [h0] at hlen
      rw [if_neg (by omega)]
      simp [parsedValues, startTexts]
    | cons t2 ts2 =>
      have hpos := tokensText_length_pos t2 ts2
      rw [if_pos (by omega)]
      rw [ih hts (by simp) (i + t.length + 1) _ (by omega)]
      simp [parsedValues, startTexts]

theorem maxclock_tokens {V : Type} [LinearOrder V] [Zero V] (strtod : List Char → V)
    (junk : List Char) (toks : List (List Char)) (hnl : ∀ t ∈ toks, '\n' ∉ t) :
    maxclock strtod (tokensText toks).length (tokensText toks ++ junk) =
      some ((parsedValues strtod toks junk).foldl (fun m v => if m < v then v else m) 0) := by
  unfold maxclock
  cases toks with
  | nil => simp [tokensText, parsedValues, startTexts]
  | cons t ts =>
    rw [if_pos (tokensText_length_pos t ts)]
    exact maxLoop_tokens strtod _ junk (t :: ts) hnl (by simp) 0 0 (by simp)

theorem foldl_max_ge {V : Type} [LinearOrder V] (vals : List V) :
    ∀ m : V, m ≤ vals.foldl (fun m v => if m < v then v else m) m ∧
      ∀ v ∈ vals, v ≤ vals.foldl (fun m v => if m < v then v else m) m := by
  induction vals with
  | nil => intro m; simp
  | cons x xs ih =>
    intro m
    simp only [List.foldl_cons]
    obtain ⟨h1, h2⟩ := ih (if m < x then x else m)
    have hm : m ≤ if m < x then x else m := by split <;> [exact le_of_lt ‹_›; exact le_refl _]
    have hx : x ≤ if m < x then x else m := by split <;> [exact le_refl _; exact not_lt.1 ‹_›]
    refine ⟨le_trans hm h1, ?_⟩
    intro v hv
    rcases List.mem_cons.1 hv with rfl | hv
    · exact le_trans hx h1
    · exact h2 v hv

theorem foldl_max_mem {V : Type} [LinearOrder V] (vals : List V) :
    ∀ m : V, vals.foldl (fun m v => if m < v then v else m) m = m ∨
      vals.foldl (fun m v => if m < v then v else m) m ∈ vals := by
  induction vals with
  | nil => intro m; simp
  | cons x xs ih =>
    intro m
    simp only [List.foldl_cons]
    rcases ih (if m < x then x else m) with h | h
    · rw [h]
      by_cases hlt : m < x
      · right; simp [hlt]
      · left; simp [hlt]
    · right; exact List.mem_cons_of_mem _ h

theorem parsedValues_nonneg {V : Type} [LinearOrder V] [Zero V] (strtod : List Char → V)
    (junk : List Char)
    (hstrtod : ∀ t rest : List Char, isDecimalLiteral t = true → 0 ≤ strtod (t ++ '\n' :: rest))
    (toks : List (List Char)) (hdec : ∀ t ∈ toks, isDecimalLiteral t = true) :
    ∀ v ∈ parsedValues strtod toks junk, 0 ≤ v := by
  induction toks with
  | nil => simp [parsedValues, startTexts]
  | cons t ts ih =>
    intro v hv
    simp only [parsedValues, startTexts, List.map_cons, List.mem_cons] at hv
    rcases hv with rfl | hv
    · have e : tokensText (t :: ts) ++ junk = t ++ '\n' :: (tokensText ts ++ junk) := by
        simp [tokensText]
      rw [e]
      exact hstrtod t _ (hdec t (List.mem_cons_self _ _))
    · exact ih (fun x hx => hdec x (List.mem_cons_of_mem _ hx)) v hv

/-- Claim C2: on a buffer of newline-terminated decimal literals, where `strtod`
gives values that are not negative, `printcpumax` prints the conversion of a
value `m` that is 0 for the empty buffer and otherwise the greatest parsed
token value: `m` is one of the values and no value exceeds it. -/
theorem maxclock_greatest {V : Type} [LinearOrder V] [Zero V] (strtod : List Char → V)
    (fmt : V → List Char) (toks : List (List Char)) (junk : List Char)
    (hdec : ∀ t ∈ toks, isDecimalLiteral t = true)
    (hstrtod : ∀ t rest : List Char, isDecimalLiteral t = true →
      0 ≤ strtod (t ++ '\n' :: rest)) :
    ∃ m : V, maxclock strtod (tokensText toks).length (tokensText toks ++ junk) = some m ∧
      printcpumax strtod fmt (tokensText toks).length (tokensText toks ++ junk) =
        some (fmt m) ∧
      (toks = [] → m = 0) ∧
      (toks ≠ [] → m ∈ parsedValues strtod toks junk ∧
        ∀ v ∈ parsedValues strtod toks junk, v ≤ m) := by
  have hnl : ∀ t ∈ toks, '\n' ∉ t := fun t ht => not_newline_of_decimal t (hdec t ht)
  have hmax := maxclock_tokens strtod junk toks hnl
  refine ⟨_, hmax, by simp [printcpumax, hmax], ?_, ?_⟩
  · intro h; subst h; simp [parsedValues, startTexts]
  · intro hne
    have hge := foldl_max_ge (parsedValues strtod toks junk) 0
    refine ⟨?_, hge.2⟩
    rcases foldl_max_mem (parsedValues strtod toks junk) 0 with h | h
    · rw [h]
      have hnn := parsedValues_nonneg strtod junk hstrtod toks hdec
      cases toks with
      | nil => exact absurd rfl hne
      | cons t ts =>
        have hmem : strtod (tokensText (t :: ts) ++ junk) ∈ parsedValues strtod (t :: ts) junk := by
          simp [parsedValues, startTexts]
        have h1 := hnn _ hmem
        have h2 := hge.2 _ hmem
        rw [h] at h2
        have h3 : strtod (tokensText (t :: ts) ++ junk) = 0 := le_antisymm h2 h1
        rw [h3] at hmem
        exact hmem
    · exact h

theorem strtodRef_nonneg (s : List Char) : 0 ≤ strtodRef s := by
  unfold strtodRef
  simp only
  split <;> exact Rat.mkRat_nonneg (Int.natCast_nonneg _) _

theorem maxclock_greatest_witness :
    ∃ m : ℚ, maxclock strtodRef
        (tokensText ["1200.50".toList, "3400.00".toList, "1200.50".toList]).length
        (tokensText ["1200.50".toList, "3400.00".toList, "1200.50".toList] ++ []) = some m ∧
      printcpumax strtodRef fmt2
        (tokensText ["1200.50".toList, "3400.00".toList, "1200.50".toList]).length
        (tokensText ["1200.50".toList, "3400.00".toList, "1200.50".toList] ++ []) =
        some (fmt2 m) ∧
      (["1200.50".toList, "3400.00".toList, "1200.50".toList] = [] → m = 0) ∧
      (["1200.50".toList, "3400.00".toList, "1200.50".toList] ≠ [] →
        m ∈ parsedValues strtodRef ["1200.50".toList, "3400.00".toList, "1200.50".toList] [] ∧
        ∀ v ∈ parsedValues strtodRef ["1200.50".toList, "3400.00".toList, "1200.50".toList] [],
          v ≤ m) :=
  maxclock_greatest strtodRef fmt2 ["1200.50".toList, "3400.00".toList, "1200.50".toList] []
    (by decide) (fun t rest _ => strtodRef_nonneg (t ++ '\n' :: rest))

/-! ### The comparison function and the contract of `qsort` -/

theorem comparecpuclock_le_iff {V : Type} [LinearOrder V] (a b : cpuclock V) :
    comparecpuclock a b ≤ 0 ↔ a.clock ≤ b.clock := by
  unfold comparecpuclock
  by_cases h1 : a.clock = b.clock
  · simp [h1]
  · by_cases h2 : a.clock < b.clock
    · simp [h1, h2, le_of_lt h2]
    · simp [h1, h2]
      exact lt_of_le_of_ne (not_lt.1 h2) (Ne.symm h1)

theorem comparecpuclock_total {V : Type} [LinearOrder V] (a b : cpuclock V) :
    comparecpuclock a b ≤ 0 ∨ comparecpuclock b a ≤ 0 := by
  rw [comparecpuclock_le_iff, comparecpuclock_le_iff]
  exact le_total _ _

theorem comparecpuclock_trans {V : Type} [LinearOrder V] (a b c : cpuclock V)
    (h1 : comparecpuclock a b ≤ 0) (h2 : comparecpuclock b c ≤ 0) :
    comparecpuclock a c ≤ 0 := by
  rw [comparecpuclock_le_iff] at *
  exact le_trans h1 h2

theorem qsortStable_contract {α : Type} : QsortContract (@qsortStable α) := by
  intro cmp base htot htrans
  haveI : IsTotal α (fun a b => cmp a b ≤ 0) := ⟨htot⟩
  haveI : IsTrans α (fun a b => cmp a b ≤ 0) := ⟨htrans⟩
  exact ⟨List.perm_insertionSort _ base, List.sorted_insertionSort _ base⟩

/-! ### The loops of `printcpuall` on a buffer of tokens -/

theorem countLoop_token (t : List Char) (h : '\n' ∉ t) (mem : List Char) (n : Nat) :
    ∀ cpucount : Nat, countLoop (t.length + 1 + n) (t ++ '\n' :: mem) cpucount =
      countLoop n mem (cpucount + 1) := by
  induction t with
  | nil =>
    intro cpucount
    have : ([] : List Char).length + 1 + n = n + 1 := by simp; omega
    rw [this, List.nil_append, countLoop]
    simp
  | cons c t ih =>
    intro cpucount
    have hc : c ≠ '\n' := fun e => h (e ▸ List.mem_cons_self _ _)
    have ht : '\n' ∉ t := fun e => h (List.mem_cons_of_mem _ e)
    have : (c :: t).length + 1 + n = (t.length + 1 + n) + 1 := by simp; omega
    rw [this, List.cons_append, countLoop, if_neg hc, ih ht]

theorem countLoop_tokens (junk : List Char) (toks : List (List Char))
    (hnl : ∀ t ∈ toks, '\n' ∉ t) :
    ∀ cpucount : Nat, countLoop (tokensText toks).length (tokensText toks ++ junk) cpucount =
      some (cpucount + toks.length) := by
  induction toks with
  | nil => intro cpucount; simp [tokensText, countLoop]
  | cons t ts ih =>
    intro cpucount
    have ht : '\n' ∉ t := hnl t (List.mem_cons_self _ _)
    have hts : ∀ t ∈ ts, '\n' ∉ t := fun x hx => hnl x (List.mem_cons_of_mem _ hx)
    have e : tokensText (t :: ts) ++ junk = t ++ '\n' :: (tokensText ts ++ junk) := by
      simp [tokensText]
    have hl : (tokensText (t :: ts)).length = t.length + 1 + (tokensText ts).length := by
      simp [tokensText]; omega
    rw [e, hl, countLoop_token t ht, ih hts]
    simp only [List.length_cons]
    congr 1
    omega

theorem fillLoop_token {V : Type} (strtod : List Char → V) (len cpucount : Nat)
    (startptr : List Char) (nodeid : Nat) (cpuclocks : List (cpuclock V)) (mem : List Char)
    (t : List Char) (h : '\n' ∉ t) :
    ∀ i : Nat, fillLoop strtod len cpucount startptr nodeid cpuclocks i (t ++ '\n' :: mem) =
      if i + t.length + 1 < len then
        if nodeid + 1 < cpucount then
          fillLoop strtod len cpucount mem (nodeid + 1)
            (cpuclocks ++ [{ nodeid := nodeid, clock := strtod startptr }])
            (i + t.length + 1) mem
        else none
      else some (cpuclocks ++ [{ nodeid := nodeid, clock := strtod startptr }]) := by
  induction t with
  | nil => intro i; simp [fillLoop]
  | cons c t ih =>
    intro i
    have hc : c ≠ '\n' := fun e => h (e ▸ List.mem_cons_self _ _)
    have ht : '\n' ∉ t := fun e => h (List.mem_cons_of_mem _ e)
    rw [List.cons_append, fillLoop, if_pos hc, ih ht (i + 1)]
    simp only [List.length_cons]
    have : i + 1 + t.length + 1 = i + (t.length + 1) + 1 := by omega
    rw [this]

theorem fillLoop_tokens {V : Type} (strtod : List Char → V) (len cpucount : Nat)
    (junk : List Char) (toks : List (List Char)) (hnl : ∀ t ∈ toks, '\n' ∉ t) :
    toks ≠ [] → ∀ (i nodeid : Nat) (cpuclocks : List (cpuclock V)),
      i + (tokensText toks).length = len → nodeid + toks.length = cpucount →
      fillLoop strtod len cpucount (tokensText toks ++ junk) nodeid cpuclocks i
          (tokensText toks ++ junk) =
        some (cpuclocks ++ readingsFrom strtod nodeid toks junk) := by
  induction toks with
  | nil => intro h; exact absurd rfl h
  | cons t ts ih =>
    intro _ i nodeid cpuclocks hlen hcount
    have ht : '\n' ∉ t := hnl t (List.mem_cons_self _ _)
    have hts : ∀ t ∈ ts, '\n' ∉ t := fun x hx => hnl x (List.mem_cons_of_mem _ hx)
    have e : tokensText (t :: ts) ++ junk = t ++ '\n' :: (tokensText ts ++ junk) := by
      simp [tokensText]
    have hl : (tokensText (t :: ts)).length = t.length + 1 + (tokensText ts).length := by
      simp [tokensText]; omega
    rw [hl] at hlen
    simp only [List.length_cons] at hcount
    conv_lhs => rw [e, fillLoop_token strtod len cpucount _ nodeid cpuclocks _ t ht i]
    rw [← e]
    cases ts with
    | nil =>
      have h0 : (tokensText ([] : List (List Char))).length = 0 := rfl
      rw [h0] at hlen
      rw [if_neg (by omega)]
      simp [readingsFrom]
    | cons t2 ts2 =>
      have hpos := tokensText_length_pos t2 ts2
      simp only [List.length_cons] at hcount
      rw [if_pos (by omega), if_pos (by omega)]
      rw [ih hts (by simp) (i + t.length + 1) (nodeid + 1) _ (by omega)
        (by simp only [List.length_cons]; omega)]
      simp [readingsFrom]

theorem readingsFrom_length {V : Type} (strtod : List Char → V) (junk : List Char)
    (toks : List (List Char)) :
    ∀ nodeid : Nat, (readingsFrom strtod nodeid toks junk).length = toks.length := by
  induction toks with
  | nil => intro _; rfl
  | cons t ts ih => intro n; simp [readingsFrom, ih]

theorem readingsFrom_clock {V : Type} (strtod : List Char → V) (junk : List Char)
    (toks : List (List Char)) :
    ∀ nodeid : Nat, (readingsFrom strtod nodeid toks junk).map cpuclock.clock =
      parsedValues strtod toks junk := by
  induction toks with
  | nil => intro _; rfl
  | cons t ts ih =>
    intro n
    simp only [readingsFrom, List.map_cons, parsedValues, startTexts]
    rw [ih (n + 1)]
    rfl

theorem readingsFrom_nodeid {V : Type} (strtod : List Char → V) (junk : List Char)
    (toks : List (List Char)) :
    ∀ nodeid : Nat, (readingsFrom strtod nodeid toks junk).map cpuclock.nodeid =
      List.range' nodeid toks.length := by
  induction toks with
  | nil => intro _; rfl
  | cons t ts ih =>
    intro n
    simp only [readingsFrom, List.map_cons, List.length_cons, List.range'_succ]
    rw [ih (n + 1)]

/-- On a buffer of tokens the array handed to `qsort` holds the readings of
the tokens in the order met, one for each token. -/
theorem sortedclocks_tokens {V : Type} [LinearOrder V]
    (qsort : (cpuclock V → cpuclock V → Int) → List (cpuclock V) → List (cpuclock V))
    (strtod : List Char → V) (junk : List Char) (toks : List (List Char))
    (hnl : ∀ t ∈ toks, '\n' ∉ t) :
    sortedclocks qsort strtod (tokensText toks).length (tokensText toks ++ junk) =
      some (qsort comparecpuclock (readingsFrom strtod 0 toks junk)) := by
  unfold sortedclocks
  rw [countLoop_tokens junk toks hnl 0]
  simp only [Nat.zero_add]
  cases toks with
  | nil => simp [tokensText, readingsFrom]
  | cons t ts =>
    rw [if_pos (tokensText_length_pos t ts), if_pos (by simp),
      fillLoop_tokens strtod _ _ junk (t :: ts) hnl (by simp) 0 0 [] (by simp) (by simp)]
    simp [readingsFrom_length]


/-- Claim C3: on a buffer of N newline-terminated tokens, with a `qsort` that
meets its contract, the values `printcpuall` prints are N in number, a
rearrangement of the N parsed token values, and never decrease from left to
right. -/
theorem printcpuall_listing {V : Type} [LinearOrder V]
    (qsort : (cpuclock V → cpuclock V → Int) → List (cpuclock V) → List (cpuclock V))
    (strtod : List Char → V) (fmt : V → List Char)
    (toks : List (List Char)) (junk : List Char)
    (hq : QsortContract qsort) (hnl : ∀ t ∈ toks, '\n' ∉ t) :
    ∃ out : List (cpuclock V),
      sortedclocks qsort strtod (tokensText toks).length (tokensText toks ++ junk) = some out ∧
      printcpuall qsort strtod fmt (tokensText toks).length (tokensText toks ++ junk) =
        some (printLoop fmt 0 out) ∧
      (out.map cpuclock.clock).length = toks.length ∧
      (out.map cpuclock.clock).Perm (parsedValues strtod toks junk) ∧
      (out.map cpuclock.clock).Pairwise (fun a b => a ≤ b) := by
  have hs := sortedclocks_tokens qsort strtod junk toks hnl
  obtain ⟨hperm, hsorted⟩ := hq comparecpuclock (readingsFrom strtod 0 toks junk)
    comparecpuclock_total comparecpuclock_trans
  refine ⟨_, hs, by simp [printcpuall, hs], ?_, ?_, ?_⟩
  · rw [List.length_map, hperm.length_eq, readingsFrom_length]
  · rw [← readingsFrom_clock strtod junk toks 0]
    exact hperm.map _
  · rw [List.pairwise_map]
    exact hsorted.imp fun {a b} h => (comparecpuclock_le_iff a b).1 h

theorem printcpuall_listing_witness :
    ∃ out : List (cpuclock ℚ),
      sortedclocks qsortStable strtodRef
        (tokensText ["1200.50".toList, "3400.00".toList, "1200.50".toList]).length
        (tokensText ["1200.50".toList, "3400.00".toList, "1200.50".toList] ++ []) = some out ∧
      printcpuall qsortStable strtodRef fmt2
        (tokensText ["1200.50".toList, "3400.00".toList, "1200.50".toList]).length
        (tokensText ["1200.50".toList, "3400.00".toList, "1200.50".toList] ++ []) =
        some (printLoop fmt2 0 out) ∧
      (out.map cpuclock.clock).length =
        ["1200.50".toList, "3400.00".toList, "1200.50".toList].length ∧
      (out.map cpuclock.clock).Perm
        (parsedValues strtodRef ["1200.50".toList, "3400.00".toList, "1200.50".toList] []) ∧
      (out.map cpuclock.clock).Pairwise (fun a b => a ≤ b) :=
  printcpuall_listing qsortStable strtodRef fmt2
    ["1200.50".toList, "3400.00".toList, "1200.50".toList] [] qsortStable_contract (by decide)

/-! ### Readings of equal clock value under a stable `qsort` (C9) -/

theorem qsortStable_stable {α : Type} : QsortStable (@qsortStable α) := by
  intro cmp base _ _ a b hab h
  exact List.pair_sublist_insertionSort (le_of_eq hab) h

theorem pair_sublist_or {α : Type} (a b : α) (hne : a ≠ b) :
    ∀ l : List α, a ∈ l → b ∈ l → List.Sublist [a, b] l ∨ List.Sublist [b, a] l := by
  intro l
  induction l with
  | nil => intro ha; cases ha
  | cons c t ih =>
    intro ha hb
    rcases List.mem_cons.1 ha with h1 | h1
    · rcases List.mem_cons.1 hb with h2 | h2
      · exact absurd (h1.trans h2.symm) hne
      · left
        rw [h1]
        exact List.Sublist.cons₂ c (List.singleton_sublist.2 h2)
    · rcases List.mem_cons.1 hb with h2 | h2
      · right
        rw [h2]
        exact List.Sublist.cons₂ c (List.singleton_sublist.2 h1)
      · rcases ih h1 h2 with h | h
        · exact Or.inl (List.Sublist.cons c h)
        · exact Or.inr (List.Sublist.cons c h)

theorem pair_sublist_asymm {α : Type} (a b : α) :
    ∀ l : List α, l.Nodup → List.Sublist [a, b] l → ¬ List.Sublist [b, a] l := by
  intro l
  induction l with
  | nil => intro _ h; cases h
  | cons c t ih =>
    intro hnd h1 h2
    obtain ⟨hc, ht⟩ := List.nodup_cons.1 hnd
    rcases List.sublist_cons_iff.1 h1 with h1 | ⟨r1, e1, s1⟩
    · rcases List.sublist_cons_iff.1 h2 with h2 | ⟨r2, e2, s2⟩
      · exact ih ht h1 h2
      · simp only [List.cons.injEq] at e2
        exact hc (e2.1 ▸ h1.subset (List.mem_cons_of_mem _ (List.mem_singleton_self b)))
    · simp only [List.cons.injEq] at e1
      rcases List.sublist_cons_iff.1 h2 with h2 | ⟨r2, e2, s2⟩
      · exact hc (e1.1 ▸ h2.subset (List.mem_cons_of_mem _ (List.mem_singleton_self a)))
      · simp only [List.cons.injEq] at e2
        rw [← e1.2] at s1
        exact hc (e2.1 ▸ s1.subset (List.mem_singleton_self b))

theorem readingsFrom_pairwise_nodeid {V : Type} (strtod : List Char → V) (junk : List Char)
    (toks : List (List Char)) (nodeid : Nat) :
    (readingsFrom strtod nodeid toks junk).Pairwise fun a b => a.nodeid < b.nodeid := by
  have h := List.pairwise_lt_range' nodeid toks.length
  rw [← readingsFrom_nodeid strtod junk toks nodeid, List.pairwise_map] at h
  exact h

theorem printLoop_clock {V : Type} (fmt : V → List Char) (l1 : List (cpuclock V)) :
    ∀ (l2 : List (cpuclock V)) (i : Nat), l1.map cpuclock.clock = l2.map cpuclock.clock →
      printLoop fmt i l1 = printLoop fmt i l2 := by
  induction l1 with
  | nil =>
    intro l2 i h
    cases l2 with
    | nil => rfl
    | cons b l2 => simp at h
  | cons a l1 ih =>
    intro l2 i h
    cases l2 with
    | nil => simp at h
    | cons b l2 =>
      simp only [List.map_cons, List.cons.injEq] at h
      simp only [printLoop, h.1, ih l2 (i + 1) h.2]

theorem sorted_arrangements_print {V : Type} [LinearOrder V] (fmt : V → List Char)
    (l1 l2 : List (cpuclock V)) (hp : l1.Perm l2)
    (h1 : l1.Pairwise fun a b => comparecpuclock a b ≤ 0)
    (h2 : l2.Pairwise fun a b => comparecpuclock a b ≤ 0) :
    printLoop fmt 0 l1 = printLoop fmt 0 l2 := by
  apply printLoop_clock
  have s1 : (l1.map cpuclock.clock).Sorted (fun a b => a ≤ b) := by
    unfold List.Sorted
    rw [List.pairwise_map]
    exact h1.imp fun {a b} h => (comparecpuclock_le_iff a b).1 h
  have s2 : (l2.map cpuclock.clock).Sorted (fun a b => a ≤ b) := by
    unfold List.Sorted
    rw [List.pairwise_map]
    exact h2.imp fun {a b} h => (comparecpuclock_le_iff a b).1 h
  exact List.eq_of_perm_of_sorted (hp.map _) s1 s2

theorem printcpuall_qsort_irrelevant {V : Type} [LinearOrder V]
    (q1 q2 : (cpuclock V → cpuclock V → Int) → List (cpuclock V) → List (cpuclock V))
    (strtod : List Char → V) (fmt : V → List Char) (len : Nat) (strings : List Char)
    (h1 : QsortContract q1) (h2 : QsortContract q2) :
    printcpuall q1 strtod fmt len strings = printcpuall q2 strtod fmt len strings := by
  unfold printcpuall sortedclocks
  cases countLoop len strings 0 with
  | none => rfl
  | some cpucount =>
    simp only
    cases (if 0 < len then
        if 0 < cpucount then fillLoop strtod len cpucount strings 0 [] 0 strings else none
      else some []) with
    | none => rfl
    | some cells =>
      simp only
      by_cases hl : cells.length = cpucount
      · rw [if_pos hl, if_pos hl]
        obtain ⟨p1, s1⟩ := h1 comparecpuclock cells comparecpuclock_total comparecpuclock_trans
        obtain ⟨p2, s2⟩ := h2 comparecpuclock cells comparecpuclock_total comparecpuclock_trans
        simp only [Option.map_some']
        rw [sorted_arrangements_print fmt _ _ (p1.trans p2.symm) s1 s2]
      · rw [if_neg hl, if_neg hl]

/-! ### No label, no output (C6) -/

/-- Claim C6: on a text without the label (the empty text is one)
`readcpuinfo` stores nothing, so `filelen` stays 0; on that buffer max mode
prints the conversion of 0, which is `0.00`, and all mode prints nothing. -/
theorem no_label_empty_output {V : Type} [LinearOrder V] [Zero V]
    (qsort : (cpuclock V → cpuclock V → Int) → List (cpuclock V) → List (cpuclock V))
    (strtod : List Char → V) (fmt : V → List Char) (text : List Char) (st : BufState)
    (hq : QsortContract qsort) (hfmt : fmt 0 = ['0', '.', '0', '0'])
    (h : ¬ CPUMHZ <:+: text) :
    readcpuinfo (some text) { st with filelen := 0 } = Outcome.ok { st with filelen := 0 } ∧
      maxclock strtod 0 (st.buffer.getD []) = some 0 ∧
      printcpuinfo qsort strtod fmt (some text) st false =
        Outcome.ok (['0', '.', '0', '0'], { st with filelen := 0 }) ∧
      printcpuinfo qsort strtod fmt (some text) st true =
        Outcome.ok ([], { st with filelen := 0 }) := by
  have hscan : readcpuinfo (some text) { st with filelen := 0 } =
      Outcome.ok { st with filelen := 0 } := by
    exact readcpuinfo_noLabel text _ h
  have hnil : qsort comparecpuclock [] = [] :=
    List.perm_nil.1 (hq comparecpuclock [] comparecpuclock_total comparecpuclock_trans).1
  refine ⟨hscan, by simp [maxclock], ?_, ?_⟩
  · simp [printcpuinfo, hscan, printcpumax, maxclock, hfmt]
  · simp [printcpuinfo, hscan, printcpuall, sortedclocks, countLoop, hnil, printLoop]

theorem no_label_empty_output_witness :
    readcpuinfo (some "processor : 0\n".toList)
        { freshState ['?', '?'] with filelen := 0 } =
        Outcome.ok { freshState ['?', '?'] with filelen := 0 } ∧
      maxclock strtodRef 0 ((freshState ['?', '?']).buffer.getD []) = some 0 ∧
      printcpuinfo qsortStable strtodRef fmt2 (some "processor : 0\n".toList)
          (freshState ['?', '?']) false =
        Outcome.ok (['0', '.', '0', '0'], { freshState ['?', '?'] with filelen := 0 }) ∧
      printcpuinfo qsortStable strtodRef fmt2 (some "processor : 0\n".toList)
          (freshState ['?', '?']) true =
        Outcome.ok ([], { freshState ['?', '?'] with filelen := 0 }) :=
  no_label_empty_output qsortStable strtodRef fmt2 "processor : 0\n".toList
    (freshState ['?', '?']) qsortStable_contract (by decide) (by decide)


/-! ## Theorems: the comparison function (C19) -/

theorem comparecpuclock_values {V : Type} [LinearOrder V] (a b : cpuclock V) :
    (comparecpuclock a b = 0 ↔ a.clock = b.clock) ∧
      (comparecpuclock a b = -1 ↔ a.clock < b.clock) ∧
      (comparecpuclock a b = 1 ↔ b.clock < a.clock) := by
  unfold comparecpuclock
  rcases lt_trichotomy a.clock b.clock with h | h | h
  · have hne : a.clock ≠ b.clock := ne_of_lt h
    have hn : ¬ b.clock < a.clock := not_lt.2 (le_of_lt h)
    simp [hne, h, hn]
  · have hn : ¬ b.clock < b.clock := lt_irrefl _
    simp [h]
  · have hne : a.clock ≠ b.clock := (ne_of_lt h).symm
    have hn : ¬ a.clock < b.clock := not_lt.2 (le_of_lt h)
    simp [hne, h, hn]

/-- Claim C19: on clock values that are linearly ordered (no NaN)
`comparecpuclock` is a consistent three-way comparison of the clock fields: it
returns 0, -1 or 1 exactly when the first clock equals, is below or is above
the second; swapping the arguments negates the result; results that are not
positive (and results that are negative) chain; and the nodeids play no
part. -/
theorem comparecpuclock_three_way {V : Type} [LinearOrder V] (a b c : cpuclock V) :
    ((comparecpuclock a b = 0 ↔ a.clock = b.clock) ∧
        (comparecpuclock a b = -1 ↔ a.clock < b.clock) ∧
        (comparecpuclock a b = 1 ↔ a.clock > b.clock)) ∧
      comparecpuclock a b = - comparecpuclock b a ∧
      (comparecpuclock a b ≤ 0 → comparecpuclock b c ≤ 0 → comparecpuclock a c ≤ 0) ∧
      (comparecpuclock a b < 0 → comparecpuclock b c < 0 → comparecpuclock a c < 0) ∧
      (comparecpuclock a b = 0 → comparecpuclock b c = 0 → comparecpuclock a c = 0) ∧
      (∀ n m : Nat, comparecpuclock { a with nodeid := n } { b with nodeid := m } =
        comparecpuclock a b) := by
  have lt_iff : ∀ x y : cpuclock V, comparecpuclock x y < 0 ↔ x.clock < y.clock := by
    intro x y
    unfold comparecpuclock
    rcases lt_trichotomy x.clock y.clock with h | h | h
    · simp [ne_of_lt h, h]
    · simp [h]
    · simp [(ne_of_lt h).symm, not_lt.2 (le_of_lt h), h]
  refine ⟨comparecpuclock_values a b, ?_, comparecpuclock_trans a b c, ?_, ?_, ?_⟩
  · unfold comparecpuclock
    rcases lt_trichotomy a.clock b.clock with h | h | h
    · simp [ne_of_lt h, (ne_of_lt h).symm, h, not_lt.2 (le_of_lt h)]
    · simp [h]
    · simp [ne_of_lt h, (ne_of_lt h).symm, h, not_lt.2 (le_of_lt h)]
  · intro h1 h2
    rw [lt_iff] at *
    exact lt_trans h1 h2
  · intro h1 h2
    rw [(comparecpuclock_values _ _).1] at *
    exact h1.trans h2
  · intro n m
    rfl


/-! ## Theorems: the scanner and the machine of the specification (C16) -/

theorem SpecMachine.step_output (s : ScanState) (w o : List Char) (c : Char) :
    SpecMachine.step { state := s, window := w, output := o } c =
      { state := (SpecMachine.step { state := s, window := w, output := [] } c).state,
        window := (SpecMachine.step { state := s, window := w, output := [] } c).window,
        output := o ++ (SpecMachine.step { state := s, window := w, output := [] } c).output } := by
  cases s <;> simp only [SpecMachine.step] <;> split <;> simp

theorem SpecMachine.finish_output (s : ScanState) (w o : List Char) :
    SpecMachine.finish { state := s, window := w, output := o } =
      o ++ SpecMachine.finish { state := s, window := w, output := [] } := by
  cases s <;> simp [SpecMachine.finish]

/-- What the machine has already put out stays in front of what it puts out
later. -/
theorem specRun_output (text : List Char) :
    ∀ (s : ScanState) (w o : List Char),
      (text.foldl SpecMachine.step { state := s, window := w, output := o }).finish =
        o ++ specRun s w text := by
  induction text with
  | nil =>
    intro s w o
    simp only [List.foldl_nil, specRun]
    exact SpecMachine.finish_output s w o
  | cons c text ih =>
    intro s w o
    simp only [List.foldl_cons, specRun]
    rw [SpecMachine.step_output s w o c, ih, ih _ _
      (SpecMachine.step { state := s, window := w, output := [] } c).output]
    simp

theorem specRun_cons (s : ScanState) (w : List Char) (c : Char) (text : List Char) :
    specRun s w (c :: text) =
      (SpecMachine.step { state := s, window := w, output := [] } c).output ++
        specRun (SpecMachine.step { state := s, window := w, output := [] } c).state
          (SpecMachine.step { state := s, window := w, output := [] } c).window text := by
  simp only [specRun, List.foldl_cons]
  exact specRun_output text _ _ _

theorem slide_eq_drop (w : List Char) (c : Char) (hw : w.length ≤ 7) :
    (if w.length = 7 then w.tail ++ [c] else w ++ [c]) =
      (w ++ [c]).drop ((w ++ [c]).length - 7) := by
  by_cases h7 : w.length = 7
  · cases w with
    | nil => simp at h7
    | cons a t =>
      simp only [List.length_cons] at h7
      have : (a :: t ++ [c]).length - 7 = 1 := by simp; omega
      rw [this]
      simp [h7]
  · have : (w ++ [c]).length - 7 = 0 := by simp; omega
    rw [this]
    simp [h7]

/-- The three loops of `readcpuinfo` hand to `writetobuffer` what the machine of
the specification puts out from the state that goes with the loop: filling or
watching for the outer loop, skipping for the skip loop, collecting (with the
first digit already put out) for the collecting loop. -/
theorem loops_refine_machine (text : List Char) :
    (∀ (w : List Char) (st : BufState) (s : ScanState), w.length ≤ 7 →
        (s = ScanState.FILLING_WINDOW ∨ s = ScanState.WATCHING) →
        scanLoop w st text = writeAll st (specRun s w text)) ∧
      (∀ st : BufState,
        skipLoop st text = writeAll st (specRun ScanState.SKIPPING_TO_DIGIT [] text)) ∧
      (∀ (st : BufState) (c : Char),
        collectLoop st c text =
          writeAll st (c :: specRun ScanState.COLLECTING_NUMBER [] text)) := by
  induction text with
  | nil =>
    refine ⟨?_, ?_, ?_⟩
    · intro w st s _ hs
      rcases hs with rfl | rfl <;> simp [scanLoop, specRun, SpecMachine.finish, writeAll]
    · intro st; simp [skipLoop, specRun, SpecMachine.finish, writeAll]
    · intro st c
      simp only [collectLoop, specRun, List.foldl_nil, SpecMachine.finish, List.nil_append,
        writeAll]
      cases writetobuffer st c with
      | none => rfl
      | some st1 => cases h : writetobuffer st1 '\n' <;> simp [h]
  | cons d text ih =>
    obtain ⟨ihScan, ihSkip, ihCollect⟩ := ih
    refine ⟨?_, ?_, ?_⟩
    · intro w st s hw hs
      rw [scanLoop_cons, specRun_cons, slide_eq_drop w d hw]
      have hlen : ((w ++ [d]).drop ((w ++ [d]).length - 7)).length ≤ 7 := by
        simp only [List.length_drop, List.length_append, List.length_singleton]
        omega
      have hstep : SpecMachine.step { state := s, window := w, output := [] } d =
          if (w ++ [d]).drop ((w ++ [d]).length - 7) = CPUMHZ then
            { state := ScanState.SKIPPING_TO_DIGIT, window := [], output := [] }
          else
            { state := if ((w ++ [d]).drop ((w ++ [d]).length - 7)).length = 7
                then ScanState.WATCHING else ScanState.FILLING_WINDOW,
              window := (w ++ [d]).drop ((w ++ [d]).length - 7), output := [] } := by
        rcases hs with rfl | rfl <;> simp only [SpecMachine.step]
      rw [hstep]
      by_cases hhit : (w ++ [d]).drop ((w ++ [d]).length - 7) = CPUMHZ
      · rw [if_pos hhit, if_pos hhit]
        simpa using ihSkip st
      · rw [if_neg hhit, if_neg hhit]
        simp only [List.nil_append]
        apply ihScan _ st _ hlen
        by_cases h7 : ((w ++ [d]).drop ((w ++ [d]).length - 7)).length = 7
        · right; rw [if_pos h7]
        · left; rw [if_neg h7]
    · intro st
      rw [skipLoop, specRun_cons]
      by_cases hd : isdigit d = true
      · rw [if_pos hd]
        simp only [SpecMachine.step, if_pos hd, List.nil_append]
        exact ihCollect st d
      · rw [if_neg hd]
        simp only [SpecMachine.step, if_neg hd, List.nil_append]
        exact ihSkip st
    · intro st c
      rw [collectLoop, specRun_cons, writeAll]
      cases writetobuffer st c with
      | none => rfl
      | some st1 =>
        simp only [Option.some_bind]
        by_cases hd : d = '\n'
        · rw [if_pos hd]
          simp only [SpecMachine.step, if_pos hd, List.nil_append, List.singleton_append,
            writeAll]
          cases writetobuffer st1 '\n' with
          | none => rfl
          | some st2 =>
            simp only [Option.some_bind]
            exact ihScan [] st2 ScanState.WATCHING (by simp) (Or.inr rfl)
        · rw [if_neg hd]
          simp only [SpecMachine.step, if_neg hd, List.nil_append, List.singleton_append]
          exact ihCollect st1 d

/-- For every text and every buffer state, `readcpuinfo` hands to
`writetobuffer` exactly the output of the machine of the specification. -/
theorem readcpuinfo_refines_machine (text : List Char) (st : BufState) :
    readcpuinfo (some text) st = Outcome.ofOption (writeAll st (specScan text)) := by
  rw [readcpuinfo_some, (loops_refine_machine text).1 [] st ScanState.FILLING_WINDOW (by simp)
    (Or.inl rfl)]
  rfl


theorem writeAll_inj (a b : List Char) (h : ∀ st : BufState, writeAll st a = writeAll st b) :
    a = b := by
  have ha := writeAll_fits a (freshState (List.replicate (a.length + b.length) 'x'))
    (List.replicate (a.length + b.length) 'x') rfl (by simp [freshState]) (by simp [freshState])
  have hb := writeAll_fits b (freshState (List.replicate (a.length + b.length) 'x'))
    (List.replicate (a.length + b.length) 'x') rfl (by simp [freshState]) (by simp [freshState])
  rw [h, hb] at ha
  simp only [freshState, Nat.zero_add, Option.some.injEq, BufState.mk.injEq, List.take_zero,
    List.nil_append, true_and] at ha
  obtain ⟨hlen, hbuf⟩ := ha
  exact ((List.append_inj hbuf hlen).1).symm

/-- The machine of the specification puts out the tokens of the way the text
is read. -/
theorem specScan_scanned {s : List Char} {toks : List (List Char)} (h : Scanned s toks) :
    specScan s = tokensText toks := by
  apply writeAll_inj
  intro st
  have h1 := (loops_refine_machine s).1 [] st ScanState.FILLING_WINDOW (by simp) (Or.inl rfl)
  rw [h.sound st] at h1
  exact h1.symm

theorem specScan_records (rs : List Record) (h : ∀ r ∈ rs, r.WellFormed) :
    specScan (recordsText rs) = tokensText (rs.map Record.num) := by
  apply writeAll_inj
  intro st
  have h1 := (loops_refine_machine (recordsText rs)).1 [] st ScanState.FILLING_WINDOW (by simp)
    (Or.inl rfl)
  have h2 := scanLoop_records_append rs [] h st
  rw [List.append_nil] at h2
  rw [h2] at h1
  simpa [scanLoop] using h1.symm

/-- As long as the output of the machine of the specification fits into the
block of `main`, the buffer `readcpuinfo` leaves holds exactly that output. -/
theorem readcpuinfo_machine_fits (text junk : List Char)
    (hcap : (specScan text).length ≤ junk.length) :
    readcpuinfo (some text) (freshState junk) =
      Outcome.ok { filelen := (specScan text).length, buflen := junk.length,
                   buffer := some (specScan text ++ junk.drop (specScan text).length) } := by
  rw [readcpuinfo_refines_machine,
    writeAll_fits _ (freshState junk) junk rfl (by simpa [freshState] using hcap)
      (by simp [freshState])]
  simp [freshState, Outcome.ofOption]

/-- Claim C16, at an input where the buffer of the code falls behind the
machine of the specification: on 1281 records `cpu MHz : 1200.50` the machine
puts out the 1281 tokens, 10248 bytes; `readcpuinfo`, started on the 10240
bytes `main` reserves, loses its block when `writetobuffer` reallocates and ends
undefined. -/
theorem machine_output_beyond_capacity (junk : List Char) :
    specScan (recordsText (List.replicate 1281
        ⟨[], [' ', ':', ' '], ['1', '2', '0', '0', '.', '5', '0']⟩)) =
        tokensText (List.replicate 1281 ['1', '2', '0', '0', '.', '5', '0']) ∧
      (tokensText (List.replicate 1281 ['1', '2', '0', '0', '.', '5', '0'])).length = 10248 ∧
      readcpuinfo (some (recordsText (List.replicate 1281
        ⟨[], [' ', ':', ' '], ['1', '2', '0', '0', '.', '5', '0']⟩)))
        { filelen := 0, buflen := 10240, buffer := some junk } = Outcome.undefined := by
  have hwf : ∀ r ∈ List.replicate 1281
      (⟨[], [' ', ':', ' '], ['1', '2', '0', '0', '.', '5', '0']⟩ : Record), r.WellFormed := by
    intro r hr
    rw [List.eq_of_mem_replicate hr]
    decide
  have hspec := specScan_records _ hwf
  rw [List.map_replicate] at hspec
  have hlen : (tokensText (List.replicate 1281 ['1', '2', '0', '0', '.', '5', '0'])).length =
      10248 := by
    rw [tokensText_length_replicate]; rfl
  refine ⟨hspec, hlen, ?_⟩
  rw [readcpuinfo_refines_machine, hspec, writeAll_overflow]
  · rfl
  · simp
  · rw [hlen]
    simp


/-! ## Theorems: growth of the buffer (C12, C17, C18) -/

/-- Where `writetobuffer` returns, `*len <= *buflen` holds again: the capacity is
doubled when it is reached. -/
theorem writetobuffer_len_le (st st1 : BufState) (c : Char)
    (h : writetobuffer st c = some st1) (hle : st.filelen ≤ st.buflen) :
    st1.filelen ≤ st1.buflen := by
  unfold writetobuffer at h
  cases hb : st.buffer with
  | none => simp [hb] at h
  | some mem =>
    simp only [hb] at h
    by_cases he : st.filelen = st.buflen
    · rw [if_pos he] at h
      by_cases hz : st.filelen < st.buflen * 2
      · rw [if_pos hz] at h
        cases h
        simp only
        omega
      · rw [if_neg hz] at h; cases h
    · rw [if_neg he] at h
      by_cases hl : st.filelen < mem.length
      · rw [if_pos hl] at h
        cases h
        simp only
        omega
      · rw [if_neg hl] at h; cases h

theorem writeAll_len_le (cs : List Char) :
    ∀ st st1 : BufState, writeAll st cs = some st1 → st.filelen ≤ st.buflen →
      st1.filelen ≤ st1.buflen := by
  induction cs with
  | nil => intro st st1 h hle; simp only [writeAll, Option.some.injEq] at h; rw [← h]; exact hle
  | cons c cs ih =>
    intro st st1 h hle
    rw [writeAll] at h
    cases h1 : writetobuffer st c with
    | none => simp [h1] at h
    | some st2 =>
      rw [h1, Option.some_bind] at h
      exact ih st2 st1 h (writetobuffer_len_le st st2 c h1 hle)

/-- A block that is filled to its last byte is still the caller's. -/
theorem writeAll_exact (junk cs : List Char) (h : cs.length = junk.length) :
    writeAll (freshState junk) cs =
      some { filelen := junk.length, buflen := junk.length, buffer := some cs } := by
  rw [writeAll_fits cs (freshState junk) junk rfl (by simp [freshState, h])
    (by simp [freshState])]
  simp [freshState, h]

/-- The store that follows goes to the block `realloc` returns: the capacity is
doubled, and the caller is left without a block. -/
theorem writeAll_one_past (junk cs : List Char) (c : Char) (h : cs.length = junk.length)
    (hpos : 0 < junk.length) :
    writeAll (freshState junk) (cs ++ [c]) =
      some { filelen := junk.length + 1, buflen := junk.length * 2, buffer := none } := by
  rw [writeAll_append, writeAll_exact junk cs h, Option.some_bind, writeAll, writetobuffer]
  simp only [if_true]
  rw [if_pos (by omega)]
  rfl

/-- One more store goes through the caller's stale pointer. -/
theorem writeAll_two_past (junk cs : List Char) (c d : Char) (rest : List Char)
    (h : cs.length = junk.length) (hpos : 0 < junk.length) :
    writeAll (freshState junk) (cs ++ c :: d :: rest) = none := by
  have e : cs ++ c :: d :: rest = (cs ++ [c]) ++ d :: rest := by simp
  rw [e, writeAll_append, writeAll_one_past junk cs c h hpos, Option.some_bind]
  exact writeAll_gone _ d rest rfl

/-- Claim C12, at the first write beyond the 10240 bytes `main` reserves:
10240 characters fill the block; with the next one the capacity is doubled
and `len <= buflen` holds, but the new block is known to `writetobuffer` alone
and the caller keeps a pointer to a block that is gone; one more character is
stored through that pointer. The buffer the caller passes on does not hold
the characters written. -/
theorem growth_loses_block :
    writeAll (freshState (List.replicate 10240 '?')) (List.replicate 10240 '1') =
        some { filelen := 10240, buflen := 10240,
               buffer := some (List.replicate 10240 '1') } ∧
      writeAll (freshState (List.replicate 10240 '?')) (List.replicate 10240 '1' ++ ['\n']) =
        some { filelen := 10241, buflen := 20480, buffer := none } ∧
      writeAll (freshState (List.replicate 10240 '?'))
        (List.replicate 10240 '1' ++ ['2', '\n']) = none := by
  have hl : (List.replicate 10240 '1').length = (List.replicate 10240 '?').length := by
    rw [List.length_replicate, List.length_replicate]
  have hp : 0 < (List.replicate 10240 '?').length := by
    rw [List.length_replicate]; decide
  refine ⟨?_, ?_, writeAll_two_past _ _ '2' '\n' [] hl hp⟩
  · rw [writeAll_exact _ _ hl, List.length_replicate]
  · rw [writeAll_one_past _ _ '\n' hl hp, List.length_replicate]

theorem tokensText_append (a b : List (List Char)) :
    tokensText (a ++ b) = tokensText a ++ tokensText b := by
  induction a with
  | nil => rfl
  | cons t ts ih => simp [tokensText, ih]

theorem recordsText_append (a b : List Record) :
    recordsText (a ++ b) = recordsText a ++ recordsText b := by
  induction a with
  | nil => rfl
  | cons r rs ih => simp [recordsText, ih]

theorem tokensText_count_newline (toks : List (List Char)) (h : ∀ t ∈ toks, '\n' ∉ t) :
    (tokensText toks).count '\n' = toks.length := by
  induction toks with
  | nil => rfl
  | cons t ts ih =>
    have ht : '\n' ∉ t := h t (List.mem_cons_self _ _)
    have hts := ih fun x hx => h x (List.mem_cons_of_mem _ hx)
    simp only [tokensText, List.count_append, List.count_cons_self, List.length_cons, hts,
      List.count_eq_zero_of_not_mem ht]
    omega

theorem tokensText_ends (toks : List (List Char)) (h : toks ≠ []) :
    ∃ x : List Char, tokensText toks = x ++ ['\n'] := by
  induction toks with
  | nil => exact absurd rfl h
  | cons t ts ih =>
    cases ts with
    | nil => exact ⟨t, by simp [tokensText]⟩
    | cons t2 ts2 =>
      obtain ⟨x, hx⟩ := ih (by simp)
      exact ⟨t ++ '\n' :: x, by rw [tokensText, hx]; simp⟩

theorem tokensText_getLast (toks : List (List Char)) (h : tokensText toks ≠ []) :
    (tokensText toks).getLast h = '\n' := by
  have hne : toks ≠ [] := by
    intro e; subst e; exact h rfl
  obtain ⟨x, hx⟩ := tokensText_ends toks hne
  simp [hx]

/-- Within the capacity the buffer `readcpuinfo` leaves from `filelen = 0` is a
run of tokens: each starts with a decimal digit, has no newline and is
followed by one newline; so the buffer is empty or ends with a newline, and it
has as many newlines as tokens. -/
theorem readcpuinfo_buffer_tokens (text : List Char) :
    ∃ toks : List (List Char),
      (∀ t ∈ toks, startsWithDigit t = true ∧ '\n' ∉ t) ∧
      (tokensText toks).count '\n' = toks.length ∧
      (∀ h : tokensText toks ≠ [], (tokensText toks).getLast h = '\n') ∧
      ∀ junk : List Char, (tokensText toks).length ≤ junk.length →
        readcpuinfo (some text) (freshState junk) =
          Outcome.ok { filelen := (tokensText toks).length, buflen := junk.length,
                       buffer := some (tokensText toks ++
                         junk.drop (tokensText toks).length) } := by
  obtain ⟨toks, h⟩ := Scanned.complete text.length text (Nat.le_refl _)
  have hshape := h.tokens_shape
  refine ⟨toks, fun t ht => ⟨(hshape t ht).1, (hshape t ht).2.1⟩,
    tokensText_count_newline toks fun t ht => (hshape t ht).2.1,
    tokensText_getLast toks, ?_⟩
  intro junk hcap
  have := readcpuinfo_machine_fits text junk (by rw [specScan_scanned h]; exact hcap)
  rw [specScan_scanned h] at this
  exact this

/-- The scan of 1279 records `cpu MHz : 1200.50` and one record as
`/proc/cpuinfo` prints it, 10241 bytes of output, on the block of `main`: the
last newline makes `writetobuffer` reallocate, and the caller is left without a
block. -/
theorem scanLoop_one_past :
    scanLoop [] (freshState (List.replicate 10240 '?'))
      (recordsText
        (List.replicate 1279 ⟨[], [' ', ':', ' '], ['1', '2', '0', '0', '.', '5', '0']⟩ ++
          [cpuinfoRecord])) =
    some { filelen := 10241, buflen := 20480, buffer := none } := by
  have hwf : ∀ r ∈ List.replicate 1279
      (⟨[], [' ', ':', ' '], ['1', '2', '0', '0', '.', '5', '0']⟩ : Record) ++ [cpuinfoRecord],
      r.WellFormed := by
    intro r hr
    rcases List.mem_append.1 hr with h | h
    · rw [List.eq_of_mem_replicate h]; decide
    · rw [List.mem_singleton.1 h]; decide
  have h1 := scanLoop_records_append _ [] hwf (freshState (List.replicate 10240 '?'))
  rw [List.append_nil] at h1
  have e : tokensText ((List.replicate 1279
      (⟨[], [' ', ':', ' '], ['1', '2', '0', '0', '.', '5', '0']⟩ : Record) ++
        [cpuinfoRecord]).map Record.num) =
      (tokensText (List.replicate 1279 ['1', '2', '0', '0', '.', '5', '0']) ++
        cpuinfoRecord.num) ++ ['\n'] := by
    rw [List.map_append, List.map_replicate, tokensText_append, List.append_assoc]
    rfl
  have hl : (tokensText (List.replicate 1279 ['1', '2', '0', '0', '.', '5', '0']) ++
      cpuinfoRecord.num).length = (List.replicate 10240 '?').length := by
    rw [List.length_append, tokensText_length_replicate, List.length_replicate]
    rfl
  have hp : 0 < (List.replicate 10240 '?').length := by
    rw [List.length_replicate]; decide
  rw [h1, e, writeAll_one_past _ _ '\n' hl hp, List.length_replicate]
  rfl

/-- Claim C17, at an input whose output is one byte more than `main` reserves:
1279 records `cpu MHz : 1200.50` and one record as `/proc/cpuinfo` prints it
make 10241 bytes. `readcpuinfo` returns with `filelen = 10241`, but the last
newline went to the block `realloc` returned and the caller's block is gone:
the buffer the caller holds is not a run of newline-terminated tokens. -/
theorem buffer_gone_after_growth :
    readcpuinfo
      (some (recordsText
        (List.replicate 1279 ⟨[], [' ', ':', ' '], ['1', '2', '0', '0', '.', '5', '0']⟩ ++
          [cpuinfoRecord])))
      (freshState (List.replicate 10240 '?')) =
    Outcome.ok { filelen := 10241, buflen := 20480, buffer := none } := by
  rw [readcpuinfo_some, scanLoop_one_past]
  rfl

/-- On a buffer of tokens that ends where the block ends, both aggregators
run through: a read at an index from `len` on would leave the block. The
first loop of `printcpuall` counts one newline for each token, and the second
loop writes one cell for each token. -/
theorem aggregators_within_len {V : Type} [LinearOrder V] [Zero V]
    (qsort : (cpuclock V → cpuclock V → Int) → List (cpuclock V) → List (cpuclock V))
    (strtod : List Char → V) (toks : List (List Char)) (hnl : ∀ t ∈ toks, '\n' ∉ t) :
    maxclock strtod (tokensText toks).length (tokensText toks) =
        some ((parsedValues strtod toks []).foldl (fun m v => if m < v then v else m) 0) ∧
      countLoop (tokensText toks).length (tokensText toks) 0 = some toks.length ∧
      sortedclocks qsort strtod (tokensText toks).length (tokensText toks) =
        some (qsort comparecpuclock (readingsFrom strtod 0 toks [])) ∧
      (readingsFrom strtod 0 toks []).length = toks.length := by
  have h1 := maxclock_tokens strtod [] toks hnl
  have h2 := countLoop_tokens [] toks hnl 0
  have h3 := sortedclocks_tokens qsort strtod [] toks hnl
  rw [List.append_nil] at h1 h2 h3
  rw [Nat.zero_add] at h2
  exact ⟨h1, h2, h3, readingsFrom_length strtod [] toks 0⟩

theorem aggregator_on_gone_block {V : Type} [LinearOrder V] [Zero V]
    (qsort : (cpuclock V → cpuclock V → Int) → List (cpuclock V) → List (cpuclock V))
    (strtod : List Char → V) (fmt : V → List Char) (len : Nat) (hpos : 0 < len) :
    printcpumax strtod fmt len [] = none ∧ printcpuall qsort strtod fmt len [] = none := by
  constructor
  · simp [printcpumax, maxclock, hpos, maxLoop]
  · cases len with
    | zero => omega
    | succ n => simp [printcpuall, sortedclocks, countLoop]

theorem freshState_reset (junk : List Char) :
    ({ freshState junk with filelen := 0 } : BufState) = freshState junk := rfl

theorem printcpuinfo_gone {V : Type} [LinearOrder V] [Zero V]
    (qsort : (cpuclock V → cpuclock V → Int) → List (cpuclock V) → List (cpuclock V))
    (strtod : List Char → V) (fmt : V → List Char) (file : Option (List Char))
    (st st1 : BufState) (displayall : Bool)
    (hscan : readcpuinfo file { st with filelen := 0 } = Outcome.ok st1)
    (hgone : st1.buffer = none) (hpos : 0 < st1.filelen) :
    printcpuinfo qsort strtod fmt file st displayall = Outcome.undefined := by
  obtain ⟨hmax, hall⟩ := aggregator_on_gone_block qsort strtod fmt st1.filelen hpos
  unfold printcpuinfo
  rw [hscan]
  cases displayall <;> simp [hgone, hmax, hall]

/-- Claim C18, at an input whose output is one byte more than `main` reserves
(10241 bytes): `readcpuinfo` returns, but the caller's block went to `realloc`,
so the first read `strings[i]` of either aggregator goes through a stale
pointer; the run of `printcpuinfo` is undefined in both modes. -/
theorem aggregator_reads_stale_block {V : Type} [LinearOrder V] [Zero V]
    (qsort : (cpuclock V → cpuclock V → Int) → List (cpuclock V) → List (cpuclock V))
    (strtod : List Char → V) (fmt : V → List Char) (displayall : Bool) :
    printcpuinfo qsort strtod fmt
      (some (recordsText
        (List.replicate 1279 ⟨[], [' ', ':', ' '], ['1', '2', '0', '0', '.', '5', '0']⟩ ++
          [cpuinfoRecord])))
      (freshState (List.replicate 10240 '?')) displayall = Outcome.undefined := by
  apply printcpuinfo_gone qsort strtod fmt _ _
    { filelen := 10241, buflen := 20480, buffer := none } displayall
  · rw [freshState_reset, readcpuinfo_some, scanLoop_one_past]
    rfl
  · rfl
  · decide


/-! ## Theorems: `main` (C15) -/

theorem printcpuinfo_none {V : Type} [LinearOrder V] [Zero V]
    (qsort : (cpuclock V → cpuclock V → Int) → List (cpuclock V) → List (cpuclock V))
    (strtod : List Char → V) (fmt : V → List Char) (st : BufState) (displayall : Bool) :
    printcpuinfo qsort strtod fmt none st displayall = Outcome.exit 1 := rfl

theorem printcpuinfo_exit_status {V : Type} [LinearOrder V] [Zero V]
    (qsort : (cpuclock V → cpuclock V → Int) → List (cpuclock V) → List (cpuclock V))
    (strtod : List Char → V) (fmt : V → List Char) (file : Option (List Char))
    (st : BufState) (displayall : Bool) (status : Nat)
    (h : printcpuinfo qsort strtod fmt file st displayall = Outcome.exit status) :
    status = 1 := by
  cases file with
  | none =>
    rw [printcpuinfo_none] at h
    cases h
    rfl
  | some text =>
    unfold printcpuinfo at h
    rw [readcpuinfo_some] at h
    cases hs : scanLoop [] { st with filelen := 0 } text with
    | none => simp [hs, Outcome.ofOption] at h
    | some st1 =>
      simp only [hs, Outcome.ofOption] at h
      split at h <;> cases h

theorem repeatLoop_never_returns {V : Type} [LinearOrder V] [Zero V]
    (qsort : (cpuclock V → cpuclock V → Int) → List (cpuclock V) → List (cpuclock V))
    (strtod : List Char → V) (fmt : V → List Char)
    (file : Nat → Option (List Char)) (displayall : Bool) (fuel : Nat) :
    ∀ (cycle : Nat) (st : BufState) (out : List Char),
      (repeatLoop qsort strtod fmt file displayall fuel cycle st out).ending ≠
        Ending.exited 0 := by
  induction fuel with
  | zero => intro cycle st out; simp [repeatLoop]
  | succ fuel ih =>
    intro cycle st out
    rw [repeatLoop]
    cases h : printcpuinfo qsort strtod fmt (file cycle) st displayall with
    | exit status =>
      have := printcpuinfo_exit_status qsort strtod fmt _ _ _ _ h
      subst this
      simp
    | undefined => simp
    | ok r =>
      obtain ⟨text, st1⟩ := r
      exact ih _ _ _

/-- Claim C15: with exactly one argument `s` that is none of the help words,
all mode is chosen exactly when `s` contains `a` and the repeat loop exactly
when `s` contains `r`: `main` is the repeated scan or the single scan in that
mode. The repeated scan never ends with status 0. With no argument, with more
than one, or with one argument that contains neither letter, `main` makes a
single max-mode scan. -/
theorem mode_selection {V : Type} [LinearOrder V] [Zero V]
    (qsort : (cpuclock V → cpuclock V → Int) → List (cpuclock V) → List (cpuclock V))
    (strtod : List Char → V) (fmt : V → List Char)
    (s : List Char) (args : List (List Char)) (junk : List Char)
    (file : Nat → Option (List Char)) (fuel : Nat)
    (hs : s ≠ "help".toList ∧ s ≠ "-h".toList ∧ s ≠ "--help".toList)
    (hargs : args.length ≠ 1) :
    (argDisplayall [s] = true ↔ 'a' ∈ s) ∧ (argRepeat [s] = true ↔ 'r' ∈ s) ∧
      main qsort strtod fmt [s] junk file fuel =
        (if 'r' ∈ s then repeatedScan qsort strtod fmt (decide ('a' ∈ s)) junk file fuel
         else singleScan qsort strtod fmt (decide ('a' ∈ s)) junk file) ∧
      (repeatedScan qsort strtod fmt (decide ('a' ∈ s)) junk file fuel).ending ≠
        Ending.exited 0 ∧
      ('a' ∉ s → 'r' ∉ s →
        main qsort strtod fmt [s] junk file fuel = singleScan qsort strtod fmt false junk file) ∧
      main qsort strtod fmt args junk file fuel = singleScan qsort strtod fmt false junk file := by
  have hhelp : argHelp [s] = false := by
    obtain ⟨h1, h2, h3⟩ := hs
    simp only [argHelp, h1, h2, h3, decide_False, Bool.or_self]
  have hmain : main qsort strtod fmt [s] junk file fuel =
      (if 'r' ∈ s then repeatedScan qsort strtod fmt (decide ('a' ∈ s)) junk file fuel
       else singleScan qsort strtod fmt (decide ('a' ∈ s)) junk file) := by
    unfold main
    rw [hhelp]
    simp only [argDisplayall, argRepeat, Bool.false_eq_true, if_false]
    by_cases hr : 'r' ∈ s
    · simp only [hr, decide_True, if_true, repeatedScan]
    · simp only [hr, decide_False, if_false, singleScan, Bool.false_eq_true]
  refine ⟨by simp [argDisplayall], by simp [argRepeat], hmain, ?_, ?_, ?_⟩
  · unfold repeatedScan
    cases h : printcpuinfo qsort strtod fmt (file 0)
        { filelen := 0, buflen := 10240, buffer := some junk } (decide ('a' ∈ s)) with
    | exit status =>
      have := printcpuinfo_exit_status qsort strtod fmt _ _ _ _ h
      subst this
      simp
    | undefined => simp
    | ok r =>
      obtain ⟨text, st1⟩ := r
      exact repeatLoop_never_returns qsort strtod fmt file _ fuel _ _ _
  · intro ha hr
    rw [hmain, if_neg hr]
    simp [ha]
  · have h1 : argHelp args = false := by
      cases args with
      | nil => rfl
      | cons a t =>
        cases t with
        | nil => simp at hargs
        | cons b u => rfl
    have h2 : argDisplayall args = false := by
      cases args with
      | nil => rfl
      | cons a t =>
        cases t with
        | nil => simp at hargs
        | cons b u => rfl
    have h3 : argRepeat args = false := by
      cases args with
      | nil => rfl
      | cons a t =>
        cases t with
        | nil => simp at hargs
        | cons b u => rfl
    unfold main
    rw [h1, h2, h3]
    simp only [Bool.false_eq_true, if_false, singleScan]

theorem mode_selection_witness :
    (argDisplayall [['r', 'a']] = true ↔ 'a' ∈ ['r', 'a']) ∧
      (argRepeat [['r', 'a']] = true ↔ 'r' ∈ ['r', 'a']) ∧
      main qsortStable strtodRef fmt2 [['r', 'a']] ['?'] (fun _ => some []) 2 =
        (if 'r' ∈ ['r', 'a'] then
          repeatedScan qsortStable strtodRef fmt2 (decide ('a' ∈ ['r', 'a'])) ['?']
            (fun _ => some []) 2
         else singleScan qsortStable strtodRef fmt2 (decide ('a' ∈ ['r', 'a'])) ['?']
            (fun _ => some [])) ∧
      (repeatedScan qsortStable strtodRef fmt2 (decide ('a' ∈ ['r', 'a'])) ['?']
        (fun _ => some []) 2).ending ≠ Ending.exited 0 ∧
      ('a' ∉ ['r', 'a'] → 'r' ∉ ['r', 'a'] →
        main qsortStable strtodRef fmt2 [['r', 'a']] ['?'] (fun _ => some []) 2 =
          singleScan qsortStable strtodRef fmt2 false ['?'] (fun _ => some [])) ∧
      main qsortStable strtodRef fmt2 [] ['?'] (fun _ => some []) 2 =
        singleScan qsortStable strtodRef fmt2 false ['?'] (fun _ => some []) :=
  mode_selection qsortStable strtodRef fmt2 ['r', 'a'] [] ['?'] (fun _ => some []) 2
    (by decide) (by decide)


/-! ## Theorems: the reference instances of `strtod` and `%.2lf` -/

theorem takeWhile_append_stop (p : Char → Bool) (x : Char) (r : List Char) (hx : p x = false) :
    ∀ t : List Char, (t ++ x :: r).takeWhile p = t.takeWhile p := by
  intro t
  induction t with
  | nil => simp [List.takeWhile, hx]
  | cons c t ih =>
    simp only [List.cons_append, List.takeWhile]
    cases p c <;> simp [ih]

theorem dropWhile_append_stop (p : Char → Bool) (x : Char) (r : List Char) (hx : p x = false) :
    ∀ t : List Char, (t ++ x :: r).dropWhile p = t.dropWhile p ++ x :: r := by
  intro t
  induction t with
  | nil => simp [List.dropWhile, hx]
  | cons c t ih =>
    simp only [List.cons_append, List.dropWhile]
    cases p c <;> simp [ih]

theorem isspace_of_isdigit (d : Char) (h : isdigit d = true) : isspace d = false := by
  simp only [isspace, Bool.or_eq_false_iff, decide_eq_false_iff_not]
  refine ⟨⟨⟨⟨⟨?_, ?_⟩, ?_⟩, ?_⟩, ?_⟩, ?_⟩ <;>
    (rintro rfl; revert h; decide)

/-- The reference `strtod` reads a text that starts with a digit up to the
next newline at most. -/
theorem strtodRef_local : StrtodLocal strtodRef := by
  intro t r1 r2 hd _
  cases t with
  | nil => simp [startsWithDigit] at hd
  | cons d body =>
    have hdig : isdigit d = true := by simpa [startsWithDigit] using hd
    have hsp : isspace d = false := isspace_of_isdigit d hdig
    have hnl : isdigit '\n' = false := by decide
    have key : ∀ r : List Char, strtodRef (d :: body ++ '\n' :: r) =
        strtodRef (d :: body ++ ['\n']) := by
      intro r
      unfold strtodRef
      have e1 : ∀ r : List Char, (d :: body ++ '\n' :: r).dropWhile isspace =
          d :: body ++ '\n' :: r := by
        intro r; simp [List.dropWhile, hsp]
      simp only [e1, takeWhile_append_stop isdigit '\n' _ hnl,
        dropWhile_append_stop isdigit '\n' _ hnl]
      cases hrest : (d :: body).dropWhile isdigit with
      | nil => simp
      | cons c u =>
        by_cases hc : c = '.'
        · subst hc
          simp [takeWhile_append_stop isdigit '\n' _ hnl]
        · simp only [List.cons_append]
          split
          · next heq => simp at heq; exact absurd heq.1 hc
          · split
            · next heq => simp at heq; exact absurd heq.1 hc
            · rfl
    rw [key r1, key r2]


theorem natDigitChar_isdigit (m : Nat) (h : m < 10) : isdigit (Nat.digitChar m) = true := by
  interval_cases m <;> decide

theorem digitChar_isdigit (n : Nat) : isdigit (digitChar n) = true := by
  unfold digitChar
  have h : n % 10 < 10 := Nat.mod_lt _ (by decide)
  generalize n % 10 = m at h
  interval_cases m <;> decide

theorem toDigitsCore_isdigit (fuel : Nat) :
    ∀ (n : Nat) (ds : List Char), (∀ c ∈ ds, isdigit c = true) →
      ∀ c ∈ Nat.toDigitsCore 10 fuel n ds, isdigit c = true := by
  induction fuel with
  | zero => intro n ds h; simpa [Nat.toDigitsCore] using h
  | succ fuel ih =>
    intro n ds h
    have hd : isdigit (Nat.digitChar (n % 10)) = true :=
      natDigitChar_isdigit _ (Nat.mod_lt _ (by decide))
    have hds : ∀ c ∈ Nat.digitChar (n % 10) :: ds, isdigit c = true := by
      intro c hc
      rcases List.mem_cons.1 hc with rfl | hc
      · exact hd
      · exact h c hc
    simp only [Nat.toDigitsCore]
    split
    · exact hds
    · exact ih _ _ hds

theorem toDigitsCore_ne_nil (fuel : Nat) :
    ∀ (n : Nat) (ds : List Char), ds ≠ [] → Nat.toDigitsCore 10 fuel n ds ≠ [] := by
  induction fuel with
  | zero => intro n ds h; simpa [Nat.toDigitsCore] using h
  | succ fuel ih =>
    intro n ds _
    simp only [Nat.toDigitsCore]
    split
    · simp
    · exact ih _ _ (by simp)

theorem repr_digits (k : Nat) :
    (Nat.repr k).toList ≠ [] ∧ ∀ c ∈ (Nat.repr k).toList, isdigit c = true := by
  have e : (Nat.repr k).toList = Nat.toDigitsCore 10 (k + 1) k [] := rfl
  rw [e]
  constructor
  · simp only [Nat.toDigitsCore]
    split
    · simp
    · exact toDigitsCore_ne_nil _ _ _ (by simp)
  · exact toDigitsCore_isdigit _ _ _ (by simp)

theorem twoDecimals_minus (x : List Char) (h : x.head? ≠ some '-') :
    isTwoDecimals ('-' :: x) = isTwoDecimals x := by
  simp only [isTwoDecimals, List.head?_cons, if_true, List.tail_cons, if_neg h]

/-- The reference conversion gives texts with exactly two decimal places. -/
theorem fmt2_twoDecimals (q : ℚ) : isTwoDecimals (fmt2 q) = true := by
  obtain ⟨hne, hdig⟩ := repr_digits (roundHundredths q / 100)
  have ha := digitChar_isdigit (roundHundredths q / 10)
  have hb := digitChar_isdigit (roundHundredths q)
  unfold fmt2
  simp only
  generalize (Nat.repr (roundHundredths q / 100)).toList = R at hne hdig
  cases R with
  | nil => exact absurd rfl hne
  | cons r0 R =>
    have hr0 : isdigit r0 = true := hdig r0 (List.mem_cons_self _ _)
    have hminus : r0 ≠ '-' := by
      rintro rfl; revert hr0; decide
    have hall : ∀ c ∈ R, isdigit c = true := fun c hc => hdig c (List.mem_cons_of_mem _ hc)
    have hbody : isTwoDecimals (r0 :: R ++
        ['.', digitChar (roundHundredths q / 10), digitChar (roundHundredths q)]) = true := by
      simp only [isTwoDecimals, List.cons_append, List.head?_cons, Option.some.injEq, hminus,
        if_false, List.reverse_cons, List.reverse_append, List.reverse_nil, List.nil_append,
        List.cons_append, List.singleton_append, List.append_assoc]
      simp [ha, hb, hr0]
      exact hall
    by_cases hneg : q.num < 0
    · rw [if_pos hneg]
      have e : ['-'] ++ r0 :: R ++
          ['.', digitChar (roundHundredths q / 10), digitChar (roundHundredths q)] =
          '-' :: (r0 :: R ++
            ['.', digitChar (roundHundredths q / 10), digitChar (roundHundredths q)]) := by
        simp
      rw [e, twoDecimals_minus _ (by simp [hminus]), hbody]
    · rw [if_neg hneg]
      simpa using hbody

theorem twoDecimals_chars (s : List Char) (h : isTwoDecimals s = true) :
    ∀ c ∈ s, c = '-' ∨ c = '.' ∨ isdigit c = true := by
  intro c hc
  unfold isTwoDecimals at h
  have hbody : c = '-' ∨ c ∈ (if s.head? = some '-' then s.tail else s) := by
    split
    · next hh =>
      cases s with
      | nil => simp at hc
      | cons a t =>
        simp only [List.head?_cons, Option.some.injEq] at hh
        rcases List.mem_cons.1 hc with rfl | hc
        · left; exact hh
        · right; simpa using hc
    · right; exact hc
  rcases hbody with h1 | h1
  · left; exact h1
  · right
    rw [← List.mem_reverse] at h1
    split at h
    · next d2 d1 ip heq =>
      rw [heq] at h1
      simp only [Bool.and_eq_true, List.all_eq_true] at h
      simp only [List.mem_cons] at h1
      rcases h1 with rfl | rfl | rfl | h1
      · right; exact h.1.1.1
      · right; exact h.1.1.2
      · left; rfl
      · right; exact h.2 c h1
    · cases h


/-! ## Theorems: the rendering of all mode (C13) -/

theorem printLoop_separated {V : Type} (fmt : V → List Char) (l : List (cpuclock V)) :
    ∀ i : Nat, i ≠ 0 → l ≠ [] →
      printLoop fmt i l = ',' :: ' ' :: joinValues (l.map fun x => fmt x.clock) := by
  induction l with
  | nil => intro i _ h; exact absurd rfl h
  | cons x xs ih =>
    intro i hi _
    cases xs with
    | nil => simp [printLoop, hi, joinValues]
    | cons y rest =>
      rw [printLoop, if_pos hi, ih (i + 1) (by omega) (by simp)]
      simp [joinValues]

theorem printLoop_join {V : Type} (fmt : V → List Char) (l : List (cpuclock V)) :
    printLoop fmt 0 l = joinValues (l.map fun x => fmt x.clock) := by
  cases l with
  | nil => rfl
  | cons x xs =>
    cases xs with
    | nil => simp [printLoop, joinValues]
    | cons y rest =>
      rw [printLoop, printLoop_separated fmt (y :: rest) 1 (by omega) (by simp)]
      simp [joinValues]

theorem joinValues_count (l : List (List Char)) (h : ∀ s ∈ l, ',' ∉ s) :
    (joinValues l).count ',' = l.length - 1 := by
  induction l with
  | nil => rfl
  | cons x xs ih =>
    have hx : ',' ∉ x := h x (List.mem_cons_self _ _)
    have hxs := ih fun s hs => h s (List.mem_cons_of_mem _ hs)
    cases xs with
    | nil => simp [joinValues, List.count_eq_zero_of_not_mem hx]
    | cons y rest =>
      have hsp : (',' : Char) ≠ ' ' := by decide
      have hsp2 : (' ' : Char) ≠ ',' := by decide
      simp only [joinValues, List.count_append, List.count_eq_zero_of_not_mem hx,
        List.count_cons_self, List.count_cons_of_ne hsp, List.count_cons_of_ne hsp2,
        List.length_cons] at hxs ⊢
      omega

theorem twoDecimals_no_comma (s : List Char) (h : isTwoDecimals s = true) : ',' ∉ s := by
  intro hc
  rcases twoDecimals_chars s h ',' hc with h1 | h1 | h1
  · revert h1; decide
  · revert h1; decide
  · revert h1; decide

theorem readingsFrom_local {V : Type} (strtod : List Char → V) (hloc : StrtodLocal strtod)
    (j1 j2 : List Char) (toks : List (List Char))
    (h : ∀ t ∈ toks, startsWithDigit t = true ∧ '\n' ∉ t) :
    ∀ nodeid : Nat, readingsFrom strtod nodeid toks j1 = readingsFrom strtod nodeid toks j2 := by
  induction toks with
  | nil => intro _; rfl
  | cons t ts ih =>
    intro n
    obtain ⟨h1, h2⟩ := h t (List.mem_cons_self _ _)
    have e : ∀ j : List Char, tokensText (t :: ts) ++ j = t ++ '\n' :: (tokensText ts ++ j) := by
      intro j; simp [tokensText]
    simp only [readingsFrom]
    rw [e j1, e j2, hloc t _ (tokensText ts ++ j2) h1 h2,
      ih (fun x hx => h x (List.mem_cons_of_mem _ hx)) (n + 1)]

theorem parsedValues_local {V : Type} (strtod : List Char → V) (hloc : StrtodLocal strtod)
    (j1 j2 : List Char) (toks : List (List Char))
    (h : ∀ t ∈ toks, startsWithDigit t = true ∧ '\n' ∉ t) :
    parsedValues strtod toks j1 = parsedValues strtod toks j2 := by
  rw [← readingsFrom_clock strtod j1 toks 0, ← readingsFrom_clock strtod j2 toks 0,
    readingsFrom_local strtod hloc j1 j2 toks h 0]

/-- On a buffer of tokens that start with a digit, what the aggregators print
does not depend on the bytes of the block behind the buffer. -/
theorem aggregators_local {V : Type} [LinearOrder V] [Zero V]
    (qsort : (cpuclock V → cpuclock V → Int) → List (cpuclock V) → List (cpuclock V))
    (strtod : List Char → V) (fmt : V → List Char) (hloc : StrtodLocal strtod)
    (j1 j2 : List Char) (toks : List (List Char))
    (h : ∀ t ∈ toks, startsWithDigit t = true ∧ '\n' ∉ t) :
    printcpumax strtod fmt (tokensText toks).length (tokensText toks ++ j1) =
        printcpumax strtod fmt (tokensText toks).length (tokensText toks ++ j2) ∧
      printcpuall qsort strtod fmt (tokensText toks).length (tokensText toks ++ j1) =
        printcpuall qsort strtod fmt (tokensText toks).length (tokensText toks ++ j2) := by
  have hnl : ∀ t ∈ toks, '\n' ∉ t := fun t ht => (h t ht).2
  constructor
  · simp only [printcpumax, maxclock_tokens strtod _ toks hnl,
      parsedValues_local strtod hloc j1 j2 toks h]
  · simp only [printcpuall, sortedclocks_tokens qsort strtod _ toks hnl,
      readingsFrom_local strtod hloc j1 j2 toks h 0]

theorem printcpuinfo_live {V : Type} [LinearOrder V] [Zero V]
    (qsort : (cpuclock V → cpuclock V → Int) → List (cpuclock V) → List (cpuclock V))
    (strtod : List Char → V) (fmt : V → List Char) (file : Option (List Char))
    (st st1 : BufState) (mem : List Char) (displayall : Bool)
    (hscan : readcpuinfo file { st with filelen := 0 } = Outcome.ok st1)
    (hb : st1.buffer = some mem) :
    printcpuinfo qsort strtod fmt file st displayall =
      Outcome.map (fun out => (out, st1))
        (Outcome.ofOption
          (if displayall then printcpuall qsort strtod fmt st1.filelen mem
           else printcpumax strtod fmt st1.filelen mem)) := by
  unfold printcpuinfo
  rw [hscan]
  simp only [hb, Option.getD_some]
  cases (if displayall = true then printcpuall qsort strtod fmt st1.filelen mem
    else printcpumax strtod fmt st1.filelen mem) <;> rfl


/-- The three-record example in both modes, for any `qsort` that meets the
contract, with the reference `strtod` and conversion, on the block of `main`. -/
theorem three_records_printed
    (q : (cpuclock ℚ → cpuclock ℚ → Int) → List (cpuclock ℚ) → List (cpuclock ℚ))
    (hq : QsortContract q) (displayall : Bool) :
    printcpuinfo q strtodRef fmt2
        (some "cpu MHz : 1200.50\ncpu MHz : 3400.00\ncpu MHz : 1200.50\n".toList)
        (freshState (List.replicate 10240 '?')) displayall =
      Outcome.ok
        (if displayall then "1200.50, 1200.50, 3400.00".toList else "3400.00".toList,
         { filelen := 24, buflen := 10240,
           buffer := some ("1200.50\n3400.00\n1200.50\n".toList ++
             List.replicate 10216 '?') }) := by
  have hshape : ∀ t ∈ ["1200.50".toList, "3400.00".toList, "1200.50".toList],
      startsWithDigit t = true ∧ '\n' ∉ t := by decide
  have hloc := aggregators_local qsortStable strtodRef fmt2 strtodRef_local
    (List.replicate 10216 '?') [] ["1200.50".toList, "3400.00".toList, "1200.50".toList] hshape
  have hall : printcpuall q strtodRef fmt2
      (tokensText ["1200.50".toList, "3400.00".toList, "1200.50".toList]).length
      (tokensText ["1200.50".toList, "3400.00".toList, "1200.50".toList] ++
        List.replicate 10216 '?') = some "1200.50, 1200.50, 3400.00".toList := by
    rw [printcpuall_qsort_irrelevant q qsortStable _ _ _ _ hq qsortStable_contract, hloc.2]
    decide
  have hmax : printcpumax strtodRef fmt2
      (tokensText ["1200.50".toList, "3400.00".toList, "1200.50".toList]).length
      (tokensText ["1200.50".toList, "3400.00".toList, "1200.50".toList] ++
        List.replicate 10216 '?') = some "3400.00".toList := by
    rw [hloc.1]
    decide
  rw [printcpuinfo_live q strtodRef fmt2 _ _ _
    ("1200.50\n3400.00\n1200.50\n".toList ++ List.replicate 10216 '?') displayall
    (by rw [freshState_reset]; exact readcpuinfo_three_records) rfl]
  cases displayall with
  | true =>
    rw [if_pos rfl, if_pos rfl]
    exact congrArg (fun o => Outcome.map _ (Outcome.ofOption o)) hall
  | false =>
    simp only [Bool.false_eq_true, if_false]
    exact congrArg (fun o => Outcome.map _ (Outcome.ofOption o)) hmax

/-- Well-formed records whose numbers fit into the block: what a cycle prints
in either mode, and the state it leaves. -/
theorem printcpuinfo_records {V : Type} [LinearOrder V] [Zero V]
    (qsort : (cpuclock V → cpuclock V → Int) → List (cpuclock V) → List (cpuclock V))
    (strtod : List Char → V) (fmt : V → List Char) (hloc : StrtodLocal strtod)
    (rs : List Record) (junk : List Char) (displayall : Bool)
    (h : ∀ r ∈ rs, r.WellFormed)
    (hcap : (tokensText (rs.map Record.num)).length ≤ junk.length) :
    printcpuinfo qsort strtod fmt (some (recordsText rs)) (freshState junk) displayall =
      Outcome.ok
        (if displayall then
            printLoop fmt 0 (qsort comparecpuclock (readingsFrom strtod 0 (rs.map Record.num) []))
          else fmt ((parsedValues strtod (rs.map Record.num) []).foldl
            (fun m v => if m < v then v else m) 0),
         { filelen := (tokensText (rs.map Record.num)).length, buflen := junk.length,
           buffer := some (tokensText (rs.map Record.num) ++
             junk.drop (tokensText (rs.map Record.num)).length) }) := by
  have hshape : ∀ t ∈ rs.map Record.num, startsWithDigit t = true ∧ '\n' ∉ t := by
    intro t ht
    obtain ⟨r, hr, rfl⟩ := List.mem_map.1 ht
    exact ⟨(h r hr).2.2.1, (h r hr).2.2.2⟩
  have hnl : ∀ t ∈ rs.map Record.num, '\n' ∉ t := fun t ht => (hshape t ht).2
  rw [printcpuinfo_live qsort strtod fmt (some (recordsText rs)) _ _
    (tokensText (rs.map Record.num) ++ junk.drop (tokensText (rs.map Record.num)).length)
    displayall (by rw [freshState_reset]; exact readcpuinfo_records_fits rs junk h hcap) rfl]
  have hagg := aggregators_local qsort strtod fmt hloc
    (junk.drop (tokensText (rs.map Record.num)).length) [] (rs.map Record.num) hshape
  cases displayall with
  | false =>
    simp only [Bool.false_eq_true, if_false]
    rw [hagg.1, printcpumax, maxclock_tokens strtod [] _ hnl]
    rfl
  | true =>
    simp only [if_true]
    rw [hagg.2, printcpuall, sortedclocks_tokens qsort strtod [] _ hnl]
    rfl

theorem strtodDouble_local : StrtodLocal strtodDouble := by
  intro t r1 r2 h1 h2
  unfold strtodDouble
  rw [strtodRef_local t r1 r2 h1 h2]

set_option maxRecDepth 100000 in
theorem strtodDouble_huge : strtodDouble (List.replicate 400 '9' ++ ['\n']) = ⊤ := by
  unfold strtodDouble
  rw [if_pos]
  decide

theorem fmtDouble_finite (v : WithTop ℚ) (hv : v ≠ ⊤) : isTwoDecimals (fmtDouble v) = true := by
  cases v with
  | top => exact absurd rfl hv
  | coe q => exact fmt2_twoDecimals q

theorem fmtDouble_no_comma (v : WithTop ℚ) : ',' ∉ fmtDouble v := by
  cases v with
  | top => decide
  | coe q => exact twoDecimals_no_comma _ (fmt2_twoDecimals q)

set_option maxRecDepth 100000 in
theorem huge_token_decimal : isDecimalLiteral (List.replicate 400 '9') = true := by decide

theorem single_token_listing {V : Type} [LinearOrder V] (strtod : List Char → V)
    (fmt : V → List Char) (t : List Char) :
    printLoop fmt 0 (qsortStable comparecpuclock (readingsFrom strtod 0 [t] [])) =
      fmt (strtod (t ++ ['\n'])) := by
  simp [readingsFrom, qsortStable, printLoop, tokensText]

/-- The three-record example in both modes with the values of `double`, for
any `qsort` that meets the contract, on the block of `main`. -/
theorem three_records_double
    (q : (cpuclock (WithTop ℚ) → cpuclock (WithTop ℚ) → Int) →
      List (cpuclock (WithTop ℚ)) → List (cpuclock (WithTop ℚ)))
    (hq : QsortContract q) (displayall : Bool) :
    printcpuinfo q strtodDouble fmtDouble
        (some "cpu MHz : 1200.50\ncpu MHz : 3400.00\ncpu MHz : 1200.50\n".toList)
        (freshState (List.replicate 10240 '?')) displayall =
      Outcome.ok
        (if displayall then "1200.50, 1200.50, 3400.00".toList else "3400.00".toList,
         { filelen := 24, buflen := 10240,
           buffer := some ("1200.50\n3400.00\n1200.50\n".toList ++
             List.replicate 10216 '?') }) := by
  have e : "cpu MHz : 1200.50\ncpu MHz : 3400.00\ncpu MHz : 1200.50\n".toList =
      recordsText
        [⟨[], [' ', ':', ' '], ['1', '2', '0', '0', '.', '5', '0']⟩,
         ⟨[], [' ', ':', ' '], ['3', '4', '0', '0', '.', '0', '0']⟩,
         ⟨[], [' ', ':', ' '], ['1', '2', '0', '0', '.', '5', '0']⟩] := by decide
  have hs : printLoop fmtDouble 0 (q comparecpuclock (readingsFrom strtodDouble 0
      ["1200.50".toList, "3400.00".toList, "1200.50".toList] [])) =
      printLoop fmtDouble 0 (qsortStable comparecpuclock (readingsFrom strtodDouble 0
        ["1200.50".toList, "3400.00".toList, "1200.50".toList] [])) := by
    obtain ⟨p1, s1⟩ := hq comparecpuclock (readingsFrom strtodDouble 0
      ["1200.50".toList, "3400.00".toList, "1200.50".toList] [])
      comparecpuclock_total comparecpuclock_trans
    obtain ⟨p2, s2⟩ := qsortStable_contract comparecpuclock (readingsFrom strtodDouble 0
      ["1200.50".toList, "3400.00".toList, "1200.50".toList] [])
      comparecpuclock_total comparecpuclock_trans
    exact sorted_arrangements_print fmtDouble _ _ (p1.trans p2.symm) s1 s2
  rw [e, printcpuinfo_records q strtodDouble fmtDouble strtodDouble_local _
    (List.replicate 10240 '?') displayall (by decide)
    (by rw [List.length_replicate]; decide), List.length_replicate, List.drop_replicate]
  cases displayall with
  | true =>
    simp only [if_true]
    refine congrArg Outcome.ok (Prod.ext ?_ rfl)
    exact hs.trans (by decide)
  | false =>
    simp only [Bool.false_eq_true, if_false]
    refine congrArg Outcome.ok (Prod.ext ?_ rfl)
    decide

/-- Claim C13 fails as stated: a clock value of 400 digits is a decimal number,
but it is beyond the range of `double`; `strtod` returns infinity for it, and
`%.2lf` prints infinity as `inf`, which has no decimal places. -/
theorem rendering_without_decimals :
    Outcome.map Prod.fst
        (printcpuinfo qsortStable strtodDouble fmtDouble
          (some (recordsText [⟨[], [' ', ':', ' '], List.replicate 400 '9'⟩]))
          (freshState (List.replicate 10240 '?')) true) =
        Outcome.ok ['i', 'n', 'f'] ∧
      isDecimalLiteral (List.replicate 400 '9') = true ∧
      isTwoDecimals ['i', 'n', 'f'] = false := by
  have hwf : ∀ r ∈ [(⟨[], [' ', ':', ' '], List.replicate 400 '9'⟩ : Record)],
      r.WellFormed := by
    intro r hr
    rw [List.mem_singleton.1 hr]
    refine ⟨by decide, by decide, rfl, ?_⟩
    intro hx
    have := List.eq_of_mem_replicate hx
    revert this
    decide
  have hcap : (tokensText
      ([(⟨[], [' ', ':', ' '], List.replicate 400 '9'⟩ : Record)].map Record.num)).length ≤
      (List.replicate 10240 '?').length := by
    show (List.replicate 400 '9' ++ '\n' :: []).length ≤ (List.replicate 10240 '?').length
    rw [List.length_append, List.length_replicate, List.length_replicate]
    decide
  refine ⟨?_, huge_token_decimal, by decide⟩
  rw [printcpuinfo_records qsortStable strtodDouble fmtDouble strtodDouble_local _
    (List.replicate 10240 '?') true hwf hcap, if_pos rfl]
  show Outcome.ok (printLoop fmtDouble 0 (qsortStable comparecpuclock
    (readingsFrom strtodDouble 0 [List.replicate 400 '9'] []))) = _
  rw [single_token_listing, strtodDouble_huge]
  rfl

/-- Claim C13 as amended: on a buffer of N tokens, with a `qsort` that meets
its contract, `printcpuall` prints the N sorted values joined by `", "`: nothing
before the first or after the last, N-1 separators, the empty text for N = 0.
Each value is printed by `%.2lf`: with exactly two decimal places when it is
finite, as `inf` when `strtod` returned infinity for a token beyond the range
of `double`. On the three-record example all mode prints
`1200.50, 1200.50, 3400.00` and max mode prints `3400.00`. -/
theorem printcpuall_rendering
    (qsort : (cpuclock (WithTop ℚ) → cpuclock (WithTop ℚ) → Int) →
      List (cpuclock (WithTop ℚ)) → List (cpuclock (WithTop ℚ)))
    (strtod : List Char → WithTop ℚ)
    (toks : List (List Char)) (junk : List Char)
    (hq : QsortContract qsort) (hnl : ∀ t ∈ toks, '\n' ∉ t) :
    (∃ out : List (cpuclock (WithTop ℚ)),
      sortedclocks qsort strtod (tokensText toks).length (tokensText toks ++ junk) = some out ∧
      out.length = toks.length ∧
      out.Pairwise (fun a b => a.clock ≤ b.clock) ∧
      printcpuall qsort strtod fmtDouble (tokensText toks).length (tokensText toks ++ junk) =
        some (joinValues (out.map fun x => fmtDouble x.clock)) ∧
      (∀ x ∈ out, x.clock ≠ ⊤ → isTwoDecimals (fmtDouble x.clock) = true) ∧
      (∀ x ∈ out, x.clock = ⊤ → fmtDouble x.clock = ['i', 'n', 'f']) ∧
      (joinValues (out.map fun x => fmtDouble x.clock)).count ',' = toks.length - 1 ∧
      (toks = [] → joinValues (out.map fun x => fmtDouble x.clock) = [])) ∧
    printcpuinfo qsort strtodDouble fmtDouble
        (some "cpu MHz : 1200.50\ncpu MHz : 3400.00\ncpu MHz : 1200.50\n".toList)
        (freshState (List.replicate 10240 '?')) true =
      Outcome.ok ("1200.50, 1200.50, 3400.00".toList,
        { filelen := 24, buflen := 10240,
          buffer := some ("1200.50\n3400.00\n1200.50\n".toList ++
            List.replicate 10216 '?') }) ∧
    printcpuinfo qsort strtodDouble fmtDouble
        (some "cpu MHz : 1200.50\ncpu MHz : 3400.00\ncpu MHz : 1200.50\n".toList)
        (freshState (List.replicate 10240 '?')) false =
      Outcome.ok ("3400.00".toList,
        { filelen := 24, buflen := 10240,
          buffer := some ("1200.50\n3400.00\n1200.50\n".toList ++
            List.replicate 10216 '?') }) := by
  refine ⟨?_, three_records_double qsort hq true, three_records_double qsort hq false⟩
  have hs := sortedclocks_tokens qsort strtod junk toks hnl
  obtain ⟨hperm, hsorted⟩ := hq comparecpuclock (readingsFrom strtod 0 toks junk)
    comparecpuclock_total comparecpuclock_trans
  have hlen : (qsort comparecpuclock (readingsFrom strtod 0 toks junk)).length =
      toks.length := by
    rw [hperm.length_eq, readingsFrom_length]
  refine ⟨_, hs, hlen, hsorted.imp fun {a b} h => (comparecpuclock_le_iff a b).1 h, ?_,
    fun x _ hx => fmtDouble_finite x.clock hx, ?_, ?_, ?_⟩
  · simp only [printcpuall, hs, Option.map_some', printLoop_join]
  · intro x _ hx
    rw [hx]
    rfl
  · rw [joinValues_count, List.length_map, hlen]
    intro s hs'
    obtain ⟨x, _, rfl⟩ := List.mem_map.1 hs'
    exact fmtDouble_no_comma x.clock
  · intro hnil
    have h0 : (qsort comparecpuclock (readingsFrom strtod 0 toks junk)).length = 0 := by
      rw [hlen, hnil]; rfl
    rw [List.length_eq_zero.1 h0]
    rfl

theorem printcpuall_rendering_witness :
    (∃ out : List (cpuclock (WithTop ℚ)),
      sortedclocks qsortStable strtodDouble
        (tokensText ["1200.50".toList, List.replicate 400 '9', "1200.50".toList]).length
        (tokensText ["1200.50".toList, List.replicate 400 '9', "1200.50".toList] ++ []) =
        some out ∧
      out.length = ["1200.50".toList, List.replicate 400 '9', "1200.50".toList].length ∧
      out.Pairwise (fun a b => a.clock ≤ b.clock) ∧
      printcpuall qsortStable strtodDouble fmtDouble
        (tokensText ["1200.50".toList, List.replicate 400 '9', "1200.50".toList]).length
        (tokensText ["1200.50".toList, List.replicate 400 '9', "1200.50".toList] ++ []) =
        some (joinValues (out.map fun x => fmtDouble x.clock)) ∧
      (∀ x ∈ out, x.clock ≠ ⊤ → isTwoDecimals (fmtDouble x.clock) = true) ∧
      (∀ x ∈ out, x.clock = ⊤ → fmtDouble x.clock = ['i', 'n', 'f']) ∧
      (joinValues (out.map fun x => fmtDouble x.clock)).count ',' =
        ["1200.50".toList, List.replicate 400 '9', "1200.50".toList].length - 1 ∧
      (["1200.50".toList, List.replicate 400 '9', "1200.50".toList] = [] →
        joinValues (out.map fun x => fmtDouble x.clock) = [])) ∧
    printcpuinfo qsortStable strtodDouble fmtDouble
        (some "cpu MHz : 1200.50\ncpu MHz : 3400.00\ncpu MHz : 1200.50\n".toList)
        (freshState (List.replicate 10240 '?')) true =
      Outcome.ok ("1200.50, 1200.50, 3400.00".toList,
        { filelen := 24, buflen := 10240,
          buffer := some ("1200.50\n3400.00\n1200.50\n".toList ++
            List.replicate 10216 '?') }) ∧
    printcpuinfo qsortStable strtodDouble fmtDouble
        (some "cpu MHz : 1200.50\ncpu MHz : 3400.00\ncpu MHz : 1200.50\n".toList)
        (freshState (List.replicate 10240 '?')) false =
      Outcome.ok ("3400.00".toList,
        { filelen := 24, buflen := 10240,
          buffer := some ("1200.50\n3400.00\n1200.50\n".toList ++
            List.replicate 10216 '?') }) :=
  printcpuall_rendering qsortStable strtodDouble
    ["1200.50".toList, List.replicate 400 '9', "1200.50".toList] [] qsortStable_contract
    (by
      intro t ht
      simp only [List.mem_cons, List.mem_singleton, List.not_mem_nil, or_false] at ht
      rcases ht with rfl | rfl | rfl
      · decide
      · intro hx
        have := List.eq_of_mem_replicate hx
        revert this
        decide
      · decide)


/-! ## Theorems: a source that cannot be opened (C14) -/

/-- The three-record example as the first cycle of `main`, which starts with
`filelen = 0`, `buflen = 10240` and the block of 10240 bytes. -/
theorem three_records_first_cycle
    (q : (cpuclock ℚ → cpuclock ℚ → Int) → List (cpuclock ℚ) → List (cpuclock ℚ))
    (hq : QsortContract q) (displayall : Bool) :
    printcpuinfo q strtodRef fmt2
        (some "cpu MHz : 1200.50\ncpu MHz : 3400.00\ncpu MHz : 1200.50\n".toList)
        { filelen := 0, buflen := 10240, buffer := some (List.replicate 10240 '?') }
        displayall =
      Outcome.ok
        (if displayall then "1200.50, 1200.50, 3400.00".toList else "3400.00".toList,
         { filelen := 24, buflen := 10240,
           buffer := some ("1200.50\n3400.00\n1200.50\n".toList ++
             List.replicate 10216 '?') }) := by
  have h := three_records_printed q hq displayall
  unfold freshState at h
  rw [List.length_replicate] at h
  exact h

/-- Claim C14: when the source cannot be opened, `printcpuinfo` ends in
`exit(1)`: no aggregator runs and the call prints nothing to standard output.
If this happens in the first cycle, the process ends with status 1, the message
of `readcpuinfo` on the error stream, and on standard output only the banner
`main` printed before the scan. If it happens in a round of the repeat loop, the
process ends with status 1 and standard output holds what was there before the
failing call: the earlier output and the carriage return `main` wrote at the
start of the round. The last part is the run in repeat mode whose first cycle
prints `text` and whose second cycle cannot open the source. -/
theorem open_failure_is_fatal {V : Type} [LinearOrder V] [Zero V]
    (qsort : (cpuclock V → cpuclock V → Int) → List (cpuclock V) → List (cpuclock V))
    (strtod : List Char → V) (fmt : V → List Char)
    (args : List (List Char)) (junk : List Char) (fuel : Nat)
    (hhelp : argHelp args = false) :
    (∀ (st : BufState) (displayall : Bool),
      printcpuinfo qsort strtod fmt none st displayall = Outcome.exit 1) ∧
    (∀ file : Nat → Option (List Char), file 0 = none →
      main qsort strtod fmt args junk file fuel =
        { stdout := banner, stderr := errorText, ending := Ending.exited 1 }) ∧
    (∀ (file : Nat → Option (List Char)) (displayall : Bool) (cycle : Nat) (st : BufState)
        (out : List Char), file cycle = none →
      repeatLoop qsort strtod fmt file displayall (fuel + 1) cycle st out =
        { stdout := out ++ ['\r'], stderr := errorText, ending := Ending.exited 1 }) ∧
    (∀ (file : Nat → Option (List Char)) (text : List Char) (st1 : BufState),
      argRepeat args = true →
      printcpuinfo qsort strtod fmt (file 0)
          { filelen := 0, buflen := 10240, buffer := some junk } (argDisplayall args) =
        Outcome.ok (text, st1) →
      file 1 = none →
      main qsort strtod fmt args junk file (fuel + 1) =
        { stdout := banner ++ text ++ ['\r'], stderr := errorText,
          ending := Ending.exited 1 }) := by
  refine ⟨fun _ _ => rfl, ?_, ?_, ?_⟩
  · intro file hfirst
    unfold main
    rw [hhelp, hfirst]
    rfl
  · intro file displayall cycle st out hcycle
    rw [repeatLoop, hcycle]
    rfl
  · intro file text st1 hrep hok hsecond
    unfold main
    rw [hhelp, hok, hrep]
    simp only [Bool.false_eq_true, if_false, if_true]
    rw [repeatLoop, hsecond]
    rfl

theorem open_failure_is_fatal_witness :
    argHelp [['r']] = false ∧
    printcpuinfo qsortStable strtodRef fmt2 none (freshState ['?']) true = Outcome.exit 1 ∧
    main qsortStable strtodRef fmt2 [['r']] (List.replicate 10240 '?') (fun _ => none) 3 =
      { stdout := banner, stderr := errorText, ending := Ending.exited 1 } ∧
    main qsortStable strtodRef fmt2 [['r']] (List.replicate 10240 '?')
        (fun k =>
          if k = 0 then some "cpu MHz : 1200.50\ncpu MHz : 3400.00\ncpu MHz : 1200.50\n".toList
          else none) (3 + 1) =
      { stdout := banner ++ "3400.00".toList ++ ['\r'], stderr := errorText,
        ending := Ending.exited 1 } :=
  ⟨by decide,
   (open_failure_is_fatal qsortStable strtodRef fmt2 [['r']] (List.replicate 10240 '?') 3
      (by decide)).1 _ _,
   (open_failure_is_fatal qsortStable strtodRef fmt2 [['r']] (List.replicate 10240 '?') 3
      (by decide)).2.1 _ rfl,
   (open_failure_is_fatal qsortStable strtodRef fmt2 [['r']] (List.replicate 10240 '?') 3
      (by decide)).2.2.2 _ _ _ (by decide)
      (three_records_first_cycle qsortStable qsortStable_contract false) rfl⟩


/-! ## Theorems: every cycle starts from an empty buffer (C11) -/

theorem writeAll_gone_result (st st1 : BufState) (cs : List Char) (hb : st.buffer = none)
    (h : writeAll st cs = some st1) : st1.buffer = none := by
  cases cs with
  | nil =>
    simp only [writeAll, Option.some.injEq] at h
    rw [← h]; exact hb
  | cons c cs => rw [writeAll_gone st c cs hb] at h; cases h

/-- Where the caller's block is still live after the stores, it holds the
characters written, in order, from index `filelen` on. -/
theorem writeAll_live_formula (cs : List Char) :
    ∀ (st st1 : BufState) (mem mem1 : List Char), st.buffer = some mem →
      writeAll st cs = some st1 → st1.buffer = some mem1 →
      st1 = { filelen := st.filelen + cs.length, buflen := st.buflen,
              buffer := some (mem.take st.filelen ++ cs ++
                mem.drop (st.filelen + cs.length)) } := by
  induction cs with
  | nil =>
    intro st st1 mem mem1 hb h _
    simp only [writeAll, Option.some.injEq] at h
    subst h
    cases st
    simp only at hb
    simp [hb]
  | cons c cs ih =>
    intro st st1 mem mem1 hb h h1
    rw [writeAll] at h
    unfold writetobuffer at h
    simp only [hb] at h
    by_cases he : st.filelen = st.buflen
    · rw [if_pos he] at h
      by_cases hz : st.filelen < st.buflen * 2
      · rw [if_pos hz, Option.some_bind] at h
        have := writeAll_gone_result _ _ _ rfl h
        rw [this] at h1; cases h1
      · rw [if_neg hz] at h; cases h
    · rw [if_neg he] at h
      by_cases hl : st.filelen < mem.length
      · rw [if_pos hl, Option.some_bind] at h
        have := ih _ st1 (mem.set st.filelen c) mem1 rfl h h1
        have e1 : (mem.set st.filelen c).take (st.filelen + 1) = mem.take st.filelen ++ [c] := by
          rw [List.set_eq_take_cons_drop c hl, List.take_append_eq_append_take]
          simp [List.length_take, Nat.min_eq_left (Nat.le_of_lt hl)]
        have e2 : (mem.set st.filelen c).drop (st.filelen + 1 + cs.length) =
            mem.drop (st.filelen + 1 + cs.length) :=
          List.drop_set_of_lt c mem (by omega)
        simp only [e1, e2] at this
        have a : st.filelen + 1 + cs.length = st.filelen + (cs.length + 1) := by omega
        rw [this, List.length_cons, a]
        simp
      · rw [if_neg hl] at h; cases h

/-- Whether the stores succeed, and the counters and the size of the block
they leave, depend on the counters and the size of the block only, not on
what the block holds. -/
theorem writeAll_shape (cs : List Char) :
    ∀ (f b : Nat) (m1 m2 : List Char), m1.length = m2.length →
      (writeAll { filelen := f, buflen := b, buffer := some m1 } cs).map
          (fun s => (s.filelen, s.buflen, s.buffer.map List.length)) =
        (writeAll { filelen := f, buflen := b, buffer := some m2 } cs).map
          (fun s => (s.filelen, s.buflen, s.buffer.map List.length)) := by
  induction cs with
  | nil => intro f b m1 m2 h; simp [writeAll, h]
  | cons c cs ih =>
    intro f b m1 m2 h
    rw [writeAll, writeAll]
    unfold writetobuffer
    simp only
    by_cases he : f = b
    · rw [if_pos he, if_pos he]
    · rw [if_neg he, if_neg he]
      by_cases hl : f < m1.length
      · rw [if_pos hl, if_pos (h ▸ hl), Option.some_bind, Option.some_bind]
        exact ih (f + 1) b _ _ (by simp [h])
      · rw [if_neg hl, if_neg (h ▸ hl)]

/-- Claim C11: `printcpuinfo` sets `filelen` to 0 before the scan, so the old
value plays no part; and for any two live blocks of the same size, whatever
they hold (the block of a first cycle, or the block an earlier cycle has
filled), the cycle on the same source ends in the same way, with the same
text printed, the same `filelen` and `buflen` and the same first `filelen` bytes
in the buffer: no byte an earlier cycle left behind is seen. `strtod` is taken
to read a text that starts with a digit up to the next newline at most. -/
theorem cycle_starts_empty {V : Type} [LinearOrder V] [Zero V]
    (qsort : (cpuclock V → cpuclock V → Int) → List (cpuclock V) → List (cpuclock V))
    (strtod : List Char → V) (fmt : V → List Char) (file : Option (List Char))
    (filelen buflen : Nat) (mem junk : List Char) (displayall : Bool)
    (hloc : StrtodLocal strtod) (hlen : mem.length = junk.length) :
    printcpuinfo qsort strtod fmt file
        { filelen := filelen, buflen := buflen, buffer := some mem } displayall =
      printcpuinfo qsort strtod fmt file
        { filelen := 0, buflen := buflen, buffer := some mem } displayall ∧
    Outcome.map observe (printcpuinfo qsort strtod fmt file
        { filelen := filelen, buflen := buflen, buffer := some mem } displayall) =
      Outcome.map observe (printcpuinfo qsort strtod fmt file
        { filelen := 0, buflen := buflen, buffer := some junk } displayall) := by
  refine ⟨rfl, ?_⟩
  cases file with
  | none => rfl
  | some text =>
    obtain ⟨toks, hscanned⟩ := Scanned.complete text.length text (Nat.le_refl _)
    have hshape : ∀ t ∈ toks, startsWithDigit t = true ∧ '\n' ∉ t :=
      fun t ht => ⟨(hscanned.tokens_shape t ht).1, (hscanned.tokens_shape t ht).2.1⟩
    have hs1 : readcpuinfo (some text) { filelen := 0, buflen := buflen, buffer := some mem } =
        Outcome.ofOption (writeAll { filelen := 0, buflen := buflen, buffer := some mem }
          (tokensText toks)) := by
      rw [readcpuinfo_some, hscanned.sound]
    have hs2 : readcpuinfo (some text) { filelen := 0, buflen := buflen, buffer := some junk } =
        Outcome.ofOption (writeAll { filelen := 0, buflen := buflen, buffer := some junk }
          (tokensText toks)) := by
      rw [readcpuinfo_some, hscanned.sound]
    have hsh := writeAll_shape (tokensText toks) 0 buflen mem junk hlen
    cases h1 : writeAll { filelen := 0, buflen := buflen, buffer := some mem }
        (tokensText toks) with
    | none =>
      rw [h1] at hsh hs1
      cases h2 : writeAll { filelen := 0, buflen := buflen, buffer := some junk }
          (tokensText toks) with
      | none =>
        rw [h2] at hs2
        simp only [printcpuinfo]
        rw [hs1, hs2]
      | some s2 => rw [h2] at hsh; cases hsh
    | some s1 =>
      rw [h1] at hsh hs1
      cases h2 : writeAll { filelen := 0, buflen := buflen, buffer := some junk }
          (tokensText toks) with
      | none => rw [h2] at hsh; cases hsh
      | some s2 =>
        rw [h2] at hsh hs2
        simp only [Option.map_some', Option.some.injEq, Prod.mk.injEq] at hsh
        obtain ⟨hf, hb, hbuf⟩ := hsh
        cases hb1 : s1.buffer with
        | none =>
          have hb2 : s2.buffer = none := by
            rw [hb1] at hbuf
            cases hx : s2.buffer with
            | none => rfl
            | some m => rw [hx] at hbuf; cases hbuf
          have : s1 = s2 := by
            cases s1; cases s2
            simp only at hf hb hb1 hb2
            simp [hf, hb, hb1, hb2]
          subst this
          simp only [printcpuinfo]
          rw [hs1, hs2]
        | some m1 =>
          cases hb2 : s2.buffer with
          | none => rw [hb1, hb2] at hbuf; cases hbuf
          | some m2 =>
            have e1 := writeAll_live_formula _ _ s1 mem m1 rfl h1 hb1
            have e2 := writeAll_live_formula _ _ s2 junk m2 rfl h2 hb2
            simp only [Nat.zero_add, List.take_zero, List.nil_append] at e1 e2
            have hagg := aggregators_local qsort strtod fmt hloc
              (mem.drop (tokensText toks).length) (junk.drop (tokensText toks).length) toks hshape
            rw [printcpuinfo_live qsort strtod fmt (some text) _ s1 m1 displayall hs1 hb1,
              printcpuinfo_live qsort strtod fmt (some text) _ s2 m2 displayall hs2 hb2]
            have hm1 : m1 = tokensText toks ++ mem.drop (tokensText toks).length := by
              rw [e1] at hb1; simpa using hb1.symm
            have hm2 : m2 = tokensText toks ++ junk.drop (tokensText toks).length := by
              rw [e2] at hb2; simpa using hb2.symm
            have hf1 : s1.filelen = (tokensText toks).length := by rw [e1]
            have hf2 : s2.filelen = (tokensText toks).length := by rw [e2]
            have hbl1 : s1.buflen = buflen := by rw [e1]
            have hbl2 : s2.buflen = buflen := by rw [e2]
            have hagg2 : (if displayall = true then printcpuall qsort strtod fmt s1.filelen m1
                else printcpumax strtod fmt s1.filelen m1) =
                (if displayall = true then printcpuall qsort strtod fmt s2.filelen m2
                else printcpumax strtod fmt s2.filelen m2) := by
              rw [hf1, hf2, hm1, hm2, hagg.1, hagg.2]
            rw [hagg2]
            cases (if displayall = true then printcpuall qsort strtod fmt s2.filelen m2
                else printcpumax strtod fmt s2.filelen m2) with
            | none => rfl
            | some out =>
              simp only [Outcome.ofOption, Outcome.map, observe, hb1, hb2, hf1, hf2, hbl1, hbl2,
                Option.map_some', hm1, hm2, List.take_left']

theorem cycle_starts_empty_witness :
    printcpuinfo qsortStable strtodRef fmt2 (some "cpu MHz : 5\n".toList)
        { filelen := 7, buflen := 4, buffer := some ['9', '\n', '9', '\n'] } true =
      printcpuinfo qsortStable strtodRef fmt2 (some "cpu MHz : 5\n".toList)
        { filelen := 0, buflen := 4, buffer := some ['9', '\n', '9', '\n'] } true ∧
    Outcome.map observe (printcpuinfo qsortStable strtodRef fmt2 (some "cpu MHz : 5\n".toList)
        { filelen := 7, buflen := 4, buffer := some ['9', '\n', '9', '\n'] } true) =
      Outcome.map observe (printcpuinfo qsortStable strtodRef fmt2
        (some "cpu MHz : 5\n".toList)
        { filelen := 0, buflen := 4, buffer := some ['?', '?', '?', '?'] } true) :=
  cycle_starts_empty qsortStable strtodRef fmt2 (some "cpu MHz : 5\n".toList) 7 4
    ['9', '\n', '9', '\n'] ['?', '?', '?', '?'] true strtodRef_local (by decide)


/-! ## Theorems: the output as a function of the stream (C10) -/

/-- While the tokens of a text fit into the block, the text printed is a
function of the text alone: there are tokens `toks`, read off the text as
`Scanned` describes, and a text `out`, such that every cycle on this source
prints `out` and leaves the tokens at the start of the block, whatever the
block held before, whatever `filelen` was, and whichever `qsort` that meets the
contract is used. And two arrangements of the same readings that are both
ascending under `comparecpuclock` are printed as the same text. -/
theorem output_function_of_stream {V : Type} [LinearOrder V] [Zero V]
    (strtod : List Char → V) (fmt : V → List Char) (hloc : StrtodLocal strtod)
    (text : List Char) (displayall : Bool) :
    (∃ (toks : List (List Char)) (out : List Char), Scanned text toks ∧
      ∀ (qsort : (cpuclock V → cpuclock V → Int) → List (cpuclock V) → List (cpuclock V))
        (junk : List Char) (filelen : Nat),
        QsortContract qsort → (tokensText toks).length ≤ junk.length →
        printcpuinfo qsort strtod fmt (some text)
            { filelen := filelen, buflen := junk.length, buffer := some junk } displayall =
          Outcome.ok (out,
            { filelen := (tokensText toks).length, buflen := junk.length,
              buffer := some (tokensText toks ++ junk.drop (tokensText toks).length) })) ∧
    ∀ l1 l2 : List (cpuclock V), l1.Perm l2 →
      (l1.Pairwise fun a b => comparecpuclock a b ≤ 0) →
      (l2.Pairwise fun a b => comparecpuclock a b ≤ 0) →
      printLoop fmt 0 l1 = printLoop fmt 0 l2 := by
  refine ⟨?_, sorted_arrangements_print fmt⟩
  obtain ⟨toks, hsc⟩ := Scanned.complete text.length text (Nat.le_refl _)
  have hshape : ∀ t ∈ toks, startsWithDigit t = true ∧ '\n' ∉ t :=
    fun t ht => ⟨(hsc.tokens_shape t ht).1, (hsc.tokens_shape t ht).2.1⟩
  have hnl : ∀ t ∈ toks, '\n' ∉ t := fun t ht => (hshape t ht).2
  refine ⟨toks,
    if displayall then
      printLoop fmt 0 (qsortStable comparecpuclock (readingsFrom strtod 0 toks []))
    else fmt ((parsedValues strtod toks []).foldl (fun m v => if m < v then v else m) 0),
    hsc, ?_⟩
  intro qsort junk filelen hq hfit
  have hscan : readcpuinfo (some text)
      { ({ filelen := filelen, buflen := junk.length, buffer := some junk } : BufState) with
        filelen := 0 } =
      Outcome.ok { filelen := (tokensText toks).length, buflen := junk.length,
                   buffer := some (tokensText toks ++ junk.drop (tokensText toks).length) } := by
    rw [readcpuinfo_some, hsc.sound,
      writeAll_fits _ _ junk rfl (by simpa using hfit) (by simp)]
    simp [Outcome.ofOption]
  rw [printcpuinfo_live qsort strtod fmt (some text) _ _
    (tokensText toks ++ junk.drop (tokensText toks).length) displayall hscan rfl]
  have hagg := aggregators_local qsort strtod fmt hloc
    (junk.drop (tokensText toks).length) [] toks hshape
  cases displayall with
  | false =>
    simp only [Bool.false_eq_true, if_false]
    rw [hagg.1, printcpumax, maxclock_tokens strtod [] toks hnl]
    rfl
  | true =>
    simp only [if_true]
    rw [hagg.2, printcpuall_qsort_irrelevant qsort qsortStable strtod fmt _ _ hq
      qsortStable_contract, printcpuall, sortedclocks_tokens qsortStable strtod [] toks hnl]
    rfl

/-- Claim C10, at an input whose output is more than `main` reserves: 1139
records in the form `/proc/cpuinfo` prints them. Whatever the block held, and
in either mode, the cycle leaves defined behaviour: after the lost `realloc`
the stores go through the caller's stale pointer. What such a run prints is
not fixed by the stream. -/
theorem output_beyond_capacity_undefined {V : Type} [LinearOrder V] [Zero V]
    (qsort : (cpuclock V → cpuclock V → Int) → List (cpuclock V) → List (cpuclock V))
    (strtod : List Char → V) (fmt : V → List Char) (junk : List Char) (filelen : Nat)
    (displayall : Bool) :
    printcpuinfo qsort strtod fmt (some (recordsText (List.replicate 1139 cpuinfoRecord)))
      { filelen := filelen, buflen := 10240, buffer := some junk } displayall =
      Outcome.undefined := by
  have hwf : ∀ r ∈ List.replicate 1139 cpuinfoRecord, r.WellFormed := by
    intro r hr
    rw [List.eq_of_mem_replicate hr]
    decide
  have h1 := scanLoop_records_append _ [] hwf
    { filelen := 0, buflen := 10240, buffer := some junk }
  rw [List.append_nil] at h1
  have h2 : writeAll { filelen := 0, buflen := 10240, buffer := some junk }
      (tokensText ((List.replicate 1139 cpuinfoRecord).map Record.num)) = none := by
    rw [List.map_replicate]
    apply writeAll_overflow
    · simp
    · rw [tokensText_length_replicate]
      simp [cpuinfoRecord]
  unfold printcpuinfo
  rw [readcpuinfo_some, h1, h2]
  rfl


end MaxCpuMhz
